import Mathlib

/-!
Shallow embedding of the fast-wfc-rs Wave Function Collapse core
(`src/direction.rs`, `src/utils/vec2d.rs`, `src/tile.rs`,
`src/overlapping_wfc.rs`, `src/tiling_wfc.rs`, `src/wave.rs`,
`src/propagator.rs`) together with theorems settling the spec claims.

Modelling conventions:
- `usize` indices become `Nat`; the `isize` arithmetic in the source
  (neighbour coordinates, overlap windows) is modelled with `Int` and
  explicit `Int.toNat`, mirroring the `as usize` casts.
- The `f32` scalar `Real` is modelled by a parametric ordered field `α`,
  with `f32::ln` abstracted as an explicit function argument `lg : α → α`
  (idealized real arithmetic; rounding is out of scope).
- Dense grids (`Vec2D`, `Vec3D`) holding mutable solver state are
  modelled as total functions from indices; the Rust values only exist
  at in-bounds indices, so operations that rewrite a whole grid are
  modelled as rewriting the function everywhere.
- The `propagating_queue` (a `Vec` used as a stack: `push`/`pop` at the
  back) is modelled as a `List` used as a stack (`::` / head).
- The queue-driven `propagate` loop is modelled with an explicit fuel
  parameter bounding the number of loop iterations; the invariant
  theorems below are proved for every fuel, hence hold at every point
  of the real (terminating) execution.
-/

namespace FastWFC

/-- Embeds `Direction` from `src/direction.rs`. -/
inductive Direction : Type where
  | down
  | left
  | right
  | up
deriving DecidableEq

/-- Embeds `Direction::opposite`. -/
def Direction.opposite : Direction → Direction
  | .down => .up
  | .left => .right
  | .right => .left
  | .up => .down

/-- Embeds `Direction::directions`: the array `[Down, Left, Right, Up]`. -/
def Direction.directions : List Direction := [.down, .left, .right, .up]

/-- Embeds `Direction::get_coordinates`: the `(dy, dx)` unit vector. -/
def Direction.getCoordinates : Direction → Int × Int
  | .down => (-1, 0)
  | .left => (0, -1)
  | .right => (0, 1)
  | .up => (1, 0)

/-- Embeds `DirArray<T>` from `src/direction.rs`: an array indexed by the
four directions, stored in the order `Down, Left, Right, Up`. -/
structure DirArray (α : Type _) where
  down : α
  left : α
  right : α
  up : α
deriving DecidableEq

/-- Embeds `DirArray`'s `Index<Direction>`. -/
def DirArray.get (a : DirArray α) : Direction → α
  | .down => a.down
  | .left => a.left
  | .right => a.right
  | .up => a.up

/-- Embeds `DirArray`'s `IndexMut<Direction>`: functional single-entry update. -/
def DirArray.setDir (a : DirArray α) : Direction → α → DirArray α
  | .down, v => { a with down := v }
  | .left, v => { a with left := v }
  | .right, v => { a with right := v }
  | .up, v => { a with up := v }

/-- Embeds `DirArray::new`: every direction holds the same value. -/
def DirArray.newConst (v : α) : DirArray α := ⟨v, v, v, v⟩

/-- Embeds `DirArray::new_generator`. -/
def DirArray.newGenerator (f : Direction → α) : DirArray α :=
  ⟨f .down, f .left, f .right, f .up⟩

/-- Embeds `DirArray::map`. -/
def DirArray.map (f : α → β) (a : DirArray α) : DirArray β :=
  ⟨f a.down, f a.left, f a.right, f a.up⟩

instance [Inhabited α] : Inhabited (DirArray α) := ⟨DirArray.newConst default⟩

/-- Embeds `Vec2D<T>` from `src/utils/vec2d.rs`: a 2D matrix stored
row-major in a flat vector. -/
structure Vec2D (α : Type _) where
  height : Nat
  width : Nat
  data : List α
deriving DecidableEq

instance : Inhabited (Vec2D α) := ⟨⟨0, 0, []⟩⟩

/-- Embeds the row-major indexing `self[y][x]` of `Vec2D` (in Rust a
panicking access; out-of-bounds reads are modelled by `default`). -/
def Vec2D.get [Inhabited α] (v : Vec2D α) (y x : Nat) : α :=
  v.data.getD (y * v.width + x) default

/-- Embeds `Vec2D::from_generator`: rows are produced in order, each row
left to right, and flattened. -/
def Vec2D.fromGenerator (height width : Nat) (f : Nat → Nat → α) : Vec2D α :=
  ⟨height, width, (List.range height).flatMap fun i => (List.range width).map fun j => f i j⟩

/-- Embeds `Vec2D::from_vec`. -/
def Vec2D.fromVec (data : List α) (height width : Nat) : Vec2D α :=
  ⟨height, width, data⟩

/-- Embeds `Vec2D::reflected`: each row reversed (the `chunks_exact`
reverse is expressed pointwise; on a well-formed matrix the reversed row
reads `self[y][width - 1 - x]` at column `x`). -/
def Vec2D.reflected [Inhabited α] (v : Vec2D α) : Vec2D α :=
  if v.width = 0 then v
  else Vec2D.fromGenerator v.height v.width fun y x => v.get y (v.width - 1 - x)

/-- Embeds `Vec2D::rotated`: 90° anticlockwise, `out[y][x] = in[x][width - 1 - y]`
with the new shape `(width, height)`. -/
def Vec2D.rotated [Inhabited α] (v : Vec2D α) : Vec2D α :=
  if v.data.isEmpty then ⟨v.width, v.height, []⟩
  else Vec2D.fromGenerator v.width v.height fun y x => v.get x (v.width - 1 - y)

/-- Embeds `Vec2D::get_sub_vec`: toric subwindow of shape `(subHeight, subWidth)`
anchored at `(y, x)`. -/
def Vec2D.getSubVec [Inhabited α] (v : Vec2D α) (y x subHeight subWidth : Nat) : Vec2D α :=
  if v.data.isEmpty then ⟨v.height, v.width, []⟩
  else Vec2D.fromGenerator subHeight subWidth fun dy dx =>
    v.get ((y + dy) % v.height) ((x + dx) % v.width)

/-! Overlapping front-end, `src/overlapping_wfc.rs`. -/

/-- Embeds `OverlappingWFCOptions`. -/
structure OverlappingWFCOptions where
  periodicInput : Bool
  periodicOutput : Bool
  outHeight : Nat
  outWidth : Nat
  symmetry : Nat
  patternSize : Nat
  ground : Bool

/-- Embeds `is_compatible`: `pattern1` may have `pattern2` as its neighbour in
direction `dir` iff the two windows agree pointwise on the overlap region.
The `isize` bounds arithmetic of the source is mirrored with `Int.toNat`;
note the source computes the upper `y` bound from `pattern1.width()`. -/
def isCompatible [DecidableEq α] [Inhabited α]
    (pattern1 pattern2 : Vec2D α) (dir : Direction) : Bool :=
  let dy := dir.getCoordinates.1
  let dx := dir.getCoordinates.2
  let xB : Nat × Nat :=
    if dx < 0 then (0, (dx + pattern2.width).toNat) else (dx.toNat, pattern1.width)
  let yB : Nat × Nat :=
    if dy < 0 then (0, (dy + pattern2.height).toNat) else (dy.toNat, pattern1.width)
  (List.range' yB.1 (yB.2 - yB.1)).all fun y =>
    (List.range' xB.1 (xB.2 - xB.1)).all fun x =>
      pattern1.get y x == pattern2.get ((y : Int) - dy).toNat ((x : Int) - dx).toNat

/-- Embeds `precompute_compatible`: for each pattern and direction, the list of
indices of compatible patterns, in index order. -/
def precomputeCompatible [DecidableEq α] [Inhabited α]
    (patterns : List (Vec2D α)) : List (DirArray (List Nat)) :=
  patterns.map fun pattern1 =>
    DirArray.newGenerator fun direction =>
      patterns.enum.filterMap fun p =>
        if isCompatible pattern1 p.2 direction then some p.1 else none

/-- Embeds the `symmetries` vector built for one window inside `get_patterns`:
the pushes indexed off `symmetries[0]`, `[2]`, `[4]`, `[6]`. -/
def symmetryVariants [Inhabited α] (pattern : Vec2D α) (symmetry : Nat) : List (Vec2D α) :=
  let s0 := pattern
  let l2 := if symmetry > 1 then [s0, s0.reflected] else [s0]
  let s2 := s0.rotated
  let l4 := if symmetry > 2 then l2 ++ [s2, s2.reflected] else l2
  let s4 := s2.rotated
  let s6 := s4.rotated
  if symmetry > 4 then l4 ++ [s4, s4.reflected, s6, s6.reflected] else l4

/-- Embeds the `HashMap` occurrence counting of `get_patterns`
(`patterns.entry(symmetry).or_insert(0) += 1`) as an association list from
pattern to count; the hash map's iteration order is unspecified in the
source, here insertion order. -/
def bumpCount [DecidableEq κ] : List (κ × Nat) → κ → List (κ × Nat)
  | [], k => [(k, 1)]
  | (k', c) :: rest, k =>
    if k = k' then (k', c + 1) :: rest else (k', c) :: bumpCount rest k

/-- Embeds `get_patterns`: iterate top-left origins (all of the input when
`periodic`, otherwise the `(H - N + 1) × (W - N + 1)` range), take the toric
`N × N` subwindow, push its symmetry variants, and count occurrences. -/
def getPatterns [DecidableEq α] [Inhabited α]
    (input : Vec2D α) (periodic : Bool) (patternSize symmetry : Nat) :
    List (Vec2D α × Nat) :=
  let maxI := if periodic then input.height else input.height - patternSize + 1
  let maxJ := if periodic then input.width else input.width - patternSize + 1
  ((List.range maxI).flatMap fun i =>
    (List.range maxJ).flatMap fun j =>
      symmetryVariants (input.getSubVec i j patternSize patternSize) symmetry).foldl
    bumpCount []

/-- Embeds `OverlappingWFC::to_image`: with `periodic_output` every cell reads
the `(0, 0)` corner of its pattern; otherwise cell `(i, j)` reads offset
`(di, dj)` of the pattern chosen at `(i2, j2)` where `(i2, di) = (0, i)` if
`i < pattern_size` and `(i - pattern_size + 1, pattern_size - 1)` otherwise,
and symmetrically for `j`. -/
def toImage [Inhabited α] (options : OverlappingWFCOptions)
    (patterns : List (Vec2D α)) (outputPatterns : Vec2D Nat) : Vec2D α :=
  let height := options.outHeight
  let width := options.outWidth
  let patternSize := options.patternSize
  if options.periodicOutput then
    Vec2D.fromGenerator height width fun i j =>
      (patterns.getD (outputPatterns.get i j) default).get 0 0
  else
    Vec2D.fromGenerator height width fun i j =>
      let p1 : Nat × Nat := if i < patternSize then (0, i) else (i - patternSize + 1, patternSize - 1)
      let p2 : Nat × Nat := if j < patternSize then (0, j) else (j - patternSize + 1, patternSize - 1)
      (patterns.getD (outputPatterns.get p1.1 p2.1) default).get p1.2 p2.2

/-- Claim C3's rendering map, written from the spec's words for comparison
with `toImage`: cell `(i, j)` reads offset `(di, dj)` of the pattern at
`(i2, j2)` where `(i2, di) = (i, 0)` if `i < pattern_size` and
`(i - pattern_size + 1, pattern_size - 1)` otherwise, and symmetrically
for `j`. -/
def toImageSpecC3 [Inhabited α] (options : OverlappingWFCOptions)
    (patterns : List (Vec2D α)) (outputPatterns : Vec2D Nat) : Vec2D α :=
  let height := options.outHeight
  let width := options.outWidth
  let patternSize := options.patternSize
  Vec2D.fromGenerator height width fun i j =>
    let p1 : Nat × Nat := if i < patternSize then (i, 0) else (i - patternSize + 1, patternSize - 1)
    let p2 : Nat × Nat := if j < patternSize then (j, 0) else (j - patternSize + 1, patternSize - 1)
    (patterns.getD (outputPatterns.get p1.1 p2.1) default).get p1.2 p2.2

/-! Tiles and symmetry classes, `src/tile.rs`. -/

/-- Embeds `Symmetry`: the six symmetry classes of a 2D tile. -/
inductive Symmetry : Type where
  | X
  | I
  | backslash
  | T
  | L
  | P
deriving DecidableEq

/-- Embeds `Symmetry::nb_of_possible_orientations`. -/
def Symmetry.nbOfPossibleOrientations : Symmetry → Nat
  | .X => 1
  | .I | .backslash => 2
  | .T | .L => 4
  | .P => 8

/-- Embeds `generate_rotation_map`. -/
def generateRotationMap : Symmetry → List Nat
  | .X => [0]
  | .I | .backslash => [1, 0]
  | .T | .L => [1, 2, 3, 0]
  | .P => [1, 2, 3, 0, 5, 6, 7, 4]

/-- Embeds `generate_reflection_map`. -/
def generateReflectionMap : Symmetry → List Nat
  | .X => [0]
  | .I => [0, 1]
  | .backslash => [1, 0]
  | .T => [0, 3, 2, 1]
  | .L => [1, 0, 3, 2]
  | .P => [4, 7, 6, 5, 0, 3, 2, 1]

/-- Embeds `generate_action_map`: row 0 is the identity, rows 1 to 3 compose
the rotation map onto the previous row, row 4 composes the reflection map
onto row 0, rows 5 to 7 compose the rotation map onto the previous row. -/
def generateActionMap (symmetry : Symmetry) : List (List Nat) :=
  let rotationMap := generateRotationMap symmetry
  let reflectionMap := generateReflectionMap symmetry
  let size := rotationMap.length
  let rot := fun row : List Nat => row.map fun o => rotationMap.getD o 0
  let a0 := List.range size
  let a1 := rot a0
  let a2 := rot a1
  let a3 := rot a2
  let a4 := a0.map fun o => reflectionMap.getD o 0
  let a5 := rot a4
  let a6 := rot a5
  let a7 := rot a6
  [a0, a1, a2, a3, a4, a5, a6, a7]

/-- Embeds `generate_oriented`: the distinct oriented variants of a tile's
content, built by pushing rotations (and for `P` the reflection of the last
rotation followed by its rotations). -/
def generateOriented [Inhabited α] (data : Vec2D α) : Symmetry → List (Vec2D α)
  | .X => [data]
  | .I | .backslash => [data, data.rotated]
  | .T | .L => [data, data.rotated, data.rotated.rotated, data.rotated.rotated.rotated]
  | .P =>
    let r1 := data.rotated
    let r2 := r1.rotated
    let r3 := r2.rotated
    let m0 := r3.reflected
    [data, r1, r2, r3, m0, m0.rotated, m0.rotated.rotated, m0.rotated.rotated.rotated]

/-- Embeds `Tile<T>`. -/
structure Tile (α : Type _) where
  data : List (Vec2D α)
  symmetry : Symmetry
  weight : Rat

instance [Inhabited α] : Inhabited (Tile α) := ⟨⟨[], .X, 0⟩⟩

/-- Embeds `Tile::new`: stores the oriented variants of the content. -/
def Tile.new [Inhabited α] (data : Vec2D α) (symmetry : Symmetry) (weight : Rat) : Tile α :=
  ⟨generateOriented data symmetry, symmetry, weight⟩

/-! Tiling front-end, `src/tiling_wfc.rs`. -/

/-- Embeds `generate_oriented_tile_ids`: `id_to_oriented_tile` lists the
pairs `(tile, orientation)` tile by tile; `oriented_tile_ids` gives each
tile the consecutive id range starting at the running total. -/
def generateOrientedTileIds (tiles : List (Tile α)) :
    List (Nat × Nat) × List (List Nat) :=
  let idToOrientedTile :=
    tiles.enum.flatMap fun p => (List.range p.2.data.length).map fun j => (p.1, j)
  let orientedTileIds :=
    (tiles.foldl
      (fun acc tile =>
        (acc.1 + tile.data.length, acc.2 ++ [List.range' acc.1 tile.data.length]))
      ((0 : Nat), ([] : List (List Nat)))).2
  (idToOrientedTile, orientedTileIds)

/-- Embeds the closure `add` of `generate_propagator`: one dense write for the
forward entry and one for the inverse entry. The second write indexes the
innermost dimension with `oriented_tile_id2`, exactly as the source does on
line 136 of `src/tiling_wfc.rs`. -/
def densePropagatorAdd [Inhabited α] (tiles : List (Tile α))
    (orientedTileIds : List (List Nat)) (tile1 orientation1 tile2 orientation2 : Nat)
    (dense : List (DirArray (List Bool))) (action : Nat) (direction : Direction) :
    List (DirArray (List Bool)) :=
  let actionMap1 := generateActionMap (tiles.getD tile1 default).symmetry
  let actionMap2 := generateActionMap (tiles.getD tile2 default).symmetry
  let tempOrientation1 := (actionMap1.getD action []).getD orientation1 0
  let tempOrientation2 := (actionMap2.getD action []).getD orientation2 0
  let orientedTileId1 := (orientedTileIds.getD tile1 []).getD tempOrientation1 0
  let orientedTileId2 := (orientedTileIds.getD tile2 []).getD tempOrientation2 0
  let row1 := dense.getD orientedTileId1 default
  let dense := dense.set orientedTileId1
    (row1.setDir direction ((row1.get direction).set orientedTileId2 true))
  let row2 := dense.getD orientedTileId2 default
  dense.set orientedTileId2
    (row2.setDir direction.opposite ((row2.get direction.opposite).set orientedTileId2 true))

/-- Embeds `generate_propagator`: build the dense boolean table from the
neighbour entries (eight actions each), then convert it to sparse index
lists. -/
def generatePropagator [Inhabited α] (neighbors : List (Nat × Nat × Nat × Nat))
    (tiles : List (Tile α)) (idToOrientedTile : List (Nat × Nat))
    (orientedTileIds : List (List Nat)) : List (DirArray (List Nat)) :=
  let nbOrientedTiles := idToOrientedTile.length
  let denseInit : List (DirArray (List Bool)) :=
    List.replicate nbOrientedTiles (DirArray.newConst (List.replicate nbOrientedTiles false))
  let dense := neighbors.foldl
    (fun dense nb =>
      let add := densePropagatorAdd tiles orientedTileIds nb.1 nb.2.1 nb.2.2.1 nb.2.2.2
      let dense := add dense 0 .right
      let dense := add dense 1 .down
      let dense := add dense 2 .left
      let dense := add dense 3 .up
      let dense := add dense 4 .left
      let dense := add dense 5 .up
      let dense := add dense 6 .right
      add dense 7 .down)
    denseInit
  dense.map fun vd =>
    vd.map fun v => v.enum.filterMap fun p => if p.2 then some p.1 else none

/-! Wave, `src/wave.rs`. The scalar type `α` stands for `f32`; `lg x`
stands for `x.ln()`. -/

/-- Embeds `EntropyMemoizationCell`. -/
structure MemoCell (α : Type _) where
  plogpSum : α
  sum : α
  nPatterns : Nat
deriving DecidableEq

/-- Embeds `EntropyMemoizationCell::update`: remove one pattern of the
given weight. -/
def MemoCell.update [Field α] (c : MemoCell α) (lg : α → α) (weight : α) : MemoCell α :=
  ⟨c.plogpSum - weight * lg weight, c.sum - weight, c.nPatterns - 1⟩

/-- Embeds `EntropyMemoizationCell::entropy`: `sum.ln() - plogp_sum / sum`. -/
def MemoCell.entropy [Field α] (c : MemoCell α) (lg : α → α) : α :=
  lg c.sum - c.plogpSum / c.sum

/-- Embeds the fresh memo cell of `EntropyMemoization::new`. -/
def MemoCell.init [Field α] (lg : α → α) (weights : List α) : MemoCell α :=
  ⟨(weights.map fun x => x * lg x).sum, weights.sum, weights.length⟩

/-- Embeds `Wave`: per-cell allow-sets (`data`, a total function standing for
the dense `Vec3D<bool>`) plus the per-cell entropy memo. -/
structure WaveS (α : Type _) where
  height : Nat
  width : Nat
  weights : List α
  data : Nat → Nat → Nat → Bool
  memo : Nat → Nat → MemoCell α

/-- Embeds `Wave::new`: every pattern allowed in every cell, memo initialized
from the weights. -/
def WaveS.new [Field α] (lg : α → α) (height width : Nat) (weights : List α) : WaveS α :=
  ⟨height, width, weights, fun _ _ _ => true, fun _ _ => MemoCell.init lg weights⟩

/-- Embeds `Wave::get`. -/
def WaveS.get (w : WaveS α) (i j pattern : Nat) : Bool := w.data i j pattern

/-- Embeds `Wave::unset`: if the pattern is still allowed, flip it to false
and update the cell's memo; otherwise do nothing. -/
def WaveS.unset [Field α] (lg : α → α) (w : WaveS α) (i j pattern : Nat) : WaveS α :=
  if w.data i j pattern then
    { w with
      data := fun i' j' p' => if i' = i ∧ j' = j ∧ p' = pattern then false else w.data i' j' p'
      memo := fun i' j' =>
        if i' = i ∧ j' = j then (w.memo i j).update lg (w.weights.getD pattern 0)
        else w.memo i' j' }
  else w

/-- Embeds `Wave::reset`: every entry true, memo reinitialized. -/
def WaveS.reset [Field α] (lg : α → α) (w : WaveS α) : WaveS α :=
  { w with data := fun _ _ _ => true, memo := fun _ _ => MemoCell.init lg w.weights }

/-- Embeds `Wave::get_entropy`. -/
def WaveS.getEntropy [Field α] (w : WaveS α) (lg : α → α) (i j : Nat) : α :=
  (w.memo i j).entropy lg

/-- Embeds `WaveError`. -/
inductive WaveError : Type where
  | impossible
  | finished
deriving DecidableEq

instance {ε σ : Type _} [DecidableEq ε] [DecidableEq σ] : DecidableEq (Except ε σ) :=
  fun x y =>
    match x, y with
    | .error a, .error b =>
      if h : a = b then .isTrue (by rw [h]) else .isFalse fun hc => h (by cases hc; rfl)
    | .error _, .ok _ => .isFalse fun hc => by cases hc
    | .ok _, .error _ => .isFalse fun hc => by cases hc
    | .ok a, .ok b =>
      if h : a = b then .isTrue (by rw [h]) else .isFalse fun hc => h (by cases hc; rfl)

/-- Modelled from the spec: `Vec2D::iter_enumerate`, used by
`Wave::get_min_entropy`, is declared in the `utils` module whose root file
is missing from the sources; following the row-major layout of `Vec2D` it
is modelled as enumeration of `((i, j), cell)` in row-major order. -/
def rowMajorCells (height width : Nat) : List (Nat × Nat) :=
  (List.range height).flatMap fun i => (List.range width).map fun j => (i, j)

/-- The running state of the `get_min_entropy` scan: `min` is the current
minimum (`none` stands for the initial `f64::INFINITY`, below which every
idealized entropy value lies), `minRandom` the draw kept for it, `argmin`
the current cell (`none` stands for the initial `(-1, -1)`), and `used` the
number of random draws consumed so far. -/
structure MinState (α : Type _) where
  min : Option α
  minRandom : Int
  argmin : Option (Nat × Nat)
  used : Nat

/-- The three-way comparison `entropy.partial_cmp(&min)` of the scan, under
the idealized (total, NaN-free) order on `α`. -/
def cmpWithInf [LinearOrder α] (e : α) : Option α → Ordering
  | none => .lt
  | some m => compare e m

/-- Embeds the scan loop of `Wave::get_min_entropy` over the remaining
cells: skip decided cells, fail on contradictory ones, otherwise keep the
minimum-entropy cell, breaking ties by the smaller random draw. The draw
stream `draws` stands for the successive `rng_gen.gen::<i32>()` calls. -/
def minEntropyLoop [LinearOrderedField α] (w : WaveS α) (lg : α → α) (draws : Nat → Int) :
    List (Nat × Nat) → MinState α → Except WaveError (Nat × Nat)
  | [], st =>
    match st.argmin with
    | none => .error .finished
    | some yx => .ok yx
  | c :: rest, st =>
    if (w.memo c.1 c.2).nPatterns = 1 then minEntropyLoop w lg draws rest st
    else if (w.memo c.1 c.2).nPatterns = 0 then .error .impossible
    else
      match cmpWithInf ((w.memo c.1 c.2).entropy lg) st.min with
      | .lt =>
        minEntropyLoop w lg draws rest
          ⟨some ((w.memo c.1 c.2).entropy lg), draws st.used, some c, st.used + 1⟩
      | .eq =>
        if draws st.used < st.minRandom then
          minEntropyLoop w lg draws rest
            ⟨some ((w.memo c.1 c.2).entropy lg), draws st.used, some c, st.used + 1⟩
        else
          minEntropyLoop w lg draws rest { st with used := st.used + 1 }
      | .gt => minEntropyLoop w lg draws rest st

/-- Embeds `Wave::get_min_entropy`: scan all cells starting from
`min = INFINITY`, `min_random = i32::MAX`, `argmin = (-1, -1)`. -/
def WaveS.getMinEntropy [LinearOrderedField α] (w : WaveS α) (lg : α → α)
    (draws : Nat → Int) : Except WaveError (Nat × Nat) :=
  minEntropyLoop w lg draws (rowMajorCells w.height w.width) ⟨none, 2147483647, none, 0⟩

/-! Propagator, `src/propagator.rs`. -/

/-- Embeds `Propagator`: the owned wave, the toricity flag, the sparse
compatibility lists, the per-`(y, x, pattern)` support counters (a total
function standing for the dense `Vec3D<DirArray<isize>>`), and the
propagation queue. -/
structure PState (α : Type _) where
  wave : WaveS α
  isToric : Bool
  patternsCompatibility : List (DirArray (List Nat))
  compatible : Nat → Nat → Nat → DirArray Int
  propagatingQueue : List (Nat × Nat × Nat)

/-- Updates the support-counter grid at one `(y, x, pattern)` triple. -/
def updCompatible (f : Nat → Nat → Nat → DirArray Int) (y x pattern : Nat)
    (v : DirArray Int) : Nat → Nat → Nat → DirArray Int :=
  fun y' x' p' => if y' = y ∧ x' = x ∧ p' = pattern then v else f y' x' p'

/-- Embeds `Propagator::new`: fresh wave, and every counter
`compatible[y][x][pattern][direction]` initialized to
`patterns_compatibility[pattern][direction.opposite()].len()`. -/
def Propagator.new [Field α] (lg : α → α) (height width : Nat) (weights : List α)
    (patternsCompatibility : List (DirArray (List Nat))) (isToric : Bool) : PState α :=
  { wave := WaveS.new lg height width weights
    isToric := isToric
    patternsCompatibility := patternsCompatibility
    compatible := fun _ _ pattern =>
      DirArray.newGenerator fun direction =>
        (((patternsCompatibility.getD pattern default).get direction.opposite).length : Int)
    propagatingQueue := [] }

/-- Embeds `Propagator::reset`: reset the wave and recompute every counter
from the compatibility list sizes; the queue is left untouched. -/
def Propagator.reset [Field α] (lg : α → α) (s : PState α) : PState α :=
  { s with
    wave := WaveS.reset lg s.wave
    compatible := fun _ _ pattern =>
      DirArray.newGenerator fun direction =>
        (((s.patternsCompatibility.getD pattern default).get direction.opposite).length : Int) }

/-- The neighbour coordinates computed inside `Propagator::propagate`:
modular wrap-around when toric, otherwise `none` when out of bounds
(the `continue` of the source). -/
def neighborCoords (isToric : Bool) (height width : Nat) (y1 x1 : Nat) (dy dx : Int) :
    Option (Nat × Nat) :=
  if isToric then
    some ((((y1 : Int) + dy + (height : Int)) % (height : Int)).toNat,
      (((x1 : Int) + dx + (width : Int)) % (width : Int)).toNat)
  else
    let y2 := (y1 : Int) + dy
    let x2 := (x1 : Int) + dx
    if x2 < 0 ∨ (width : Int) ≤ x2 then none
    else if y2 < 0 ∨ (height : Int) ≤ y2 then none
    else some (y2.toNat, x2.toNat)

/-- Embeds the inner loop body of `Propagator::propagate` for one compatible
pattern `pattern2` at the neighbour `(y2, x2)`: decrement the counter in the
popped direction; if it just reached zero, ban the pattern in the wave, zero
its four counters, and push it on the queue. -/
def decrementPattern [Field α] (lg : α → α) (direction : Direction) (y2 x2 : Nat)
    (s : PState α) (pattern2 : Nat) : PState α :=
  if (s.compatible y2 x2 pattern2).get direction - 1 = 0 then
    { s with
      wave := s.wave.unset lg y2 x2 pattern2
      compatible := updCompatible
        (updCompatible s.compatible y2 x2 pattern2
          ((s.compatible y2 x2 pattern2).setDir direction
            ((s.compatible y2 x2 pattern2).get direction - 1)))
        y2 x2 pattern2 (DirArray.newConst 0)
      propagatingQueue := (y2, x2, pattern2) :: s.propagatingQueue }
  else
    { s with
      compatible := updCompatible s.compatible y2 x2 pattern2
        ((s.compatible y2 x2 pattern2).setDir direction
          ((s.compatible y2 x2 pattern2).get direction - 1)) }

/-- Embeds one direction of the propagation of a popped `(y1, x1, pattern)`:
find the neighbour and decrement all its patterns compatible with `pattern`
in that direction. -/
def propagateDir [Field α] (lg : α → α) (y1 x1 pattern : Nat)
    (s : PState α) (direction : Direction) : PState α :=
  match neighborCoords s.isToric s.wave.height s.wave.width y1 x1
      direction.getCoordinates.1 direction.getCoordinates.2 with
  | none => s
  | some yx2 =>
    ((s.patternsCompatibility.getD pattern default).get direction).foldl
      (decrementPattern lg direction yx2.1 yx2.2) s

/-- Embeds the body of the `while let` loop of `Propagator::propagate` for one
popped triple. -/
def propagateOnce [Field α] (lg : α → α) (y1 x1 pattern : Nat) (s : PState α) : PState α :=
  Direction.directions.foldl (propagateDir lg y1 x1 pattern) s

/-- Embeds `Propagator::propagate`: pop and process queue entries until the
queue is empty, with an explicit fuel bounding the number of iterations. -/
def Propagator.propagate [Field α] (lg : α → α) : Nat → PState α → PState α
  | 0, s => s
  | fuel + 1, s =>
    match s.propagatingQueue with
    | [] => s
    | (y1, x1, pattern) :: rest =>
      Propagator.propagate lg fuel
        (propagateOnce lg y1 x1 pattern { s with propagatingQueue := rest })

/-- Embeds `Propagator::unset`: if the pattern is still allowed, ban it in the
wave, zero its four counters, push it on the queue and propagate. -/
def Propagator.unset [Field α] (lg : α → α) (fuel : Nat) (s : PState α)
    (y x pattern : Nat) : PState α :=
  if s.wave.data y x pattern then
    Propagator.propagate lg fuel
      { s with
        wave := s.wave.unset lg y x pattern
        compatible := updCompatible s.compatible y x pattern (DirArray.newConst 0)
        propagatingQueue := (y, x, pattern) :: s.propagatingQueue }
  else s

/-- A sequence of `Propagator::unset` calls, as performed during a solve. -/
def applyUnsets [Field α] (lg : α → α) (fuel : Nat) (ops : List (Nat × Nat × Nat))
    (s : PState α) : PState α :=
  ops.foldl (fun s op => Propagator.unset lg fuel s op.1 op.2.1 op.2.2) s

/-! Helper lemmas on the row-major layout. -/

theorem getD_flatten_rows {α : Type _} (w : Nat) (d : α) :
    ∀ (rows : List (List α)) (i j : Nat), (∀ r ∈ rows, r.length = w) →
      i < rows.length → j < w →
      rows.flatten.getD (i * w + j) d = (rows.getD i []).getD j d := by
  intro rows
  induction rows with
  | nil => intro i j _ hi _; simp at hi
  | cons r rest ih =>
    intro i j hlen hi hj
    have hr : r.length = w := hlen r (List.mem_cons_self r rest)
    cases i with
    | zero =>
      simp only [List.flatten_cons, Nat.zero_mul, Nat.zero_add, List.getD_cons_zero]
      exact List.getD_append _ _ _ _ (by omega)
    | succ i' =>
      have harith : (i' + 1) * w + j = r.length + (i' * w + j) := by
        rw [hr]; ring
      simp only [List.flatten_cons, List.getD_cons_succ]
      rw [harith, List.getD_append_right _ _ _ _ (Nat.le_add_right _ _),
        Nat.add_sub_cancel_left]
      exact ih i' j (fun s hs => hlen s (List.mem_cons_of_mem r hs)) (by simpa using hi) hj

theorem Vec2D.get_fromGenerator {α : Type _} [Inhabited α] (height width : Nat)
    (f : Nat → Nat → α) (i j : Nat) (hi : i < height) (hj : j < width) :
    (Vec2D.fromGenerator height width f).get i j = f i j := by
  show (((List.range height).flatMap fun i => (List.range width).map fun j => f i j).getD
    (i * width + j) default) = f i j
  rw [List.flatMap_def, getD_flatten_rows width default]
  · have h1 : (List.map (fun i => List.map (fun j => f i j) (List.range width))
        (List.range height)).getD i [] = List.map (fun j => f i j) (List.range width) := by
      rw [List.getD_eq_getElem?_getD, List.getElem?_map, List.getElem?_range hi]
      rfl
    rw [h1, List.getD_eq_getElem?_getD, List.getElem?_map, List.getElem?_range hj]
    rfl
  · intro r hr
    rcases List.mem_map.mp hr with ⟨a, _, rfl⟩
    simp
  · simpa using hi
  · exact hj

/-!
Claim C1. The spec states that `generate_propagator` establishes the
compatibility symmetry by writing both `compat[gid_a][d][gid_b]` and
`compat[gid_b][opposite(d)][gid_a]`. The source instead writes the inverse
entry at `dense_propagator[oriented_tile_id2][direction.opposite()][oriented_tile_id2]`
(`src/tiling_wfc.rs` line 136): the innermost index should be
`oriented_tile_id1`. The theorem below evaluates the code on two tiles of
symmetry class `X` and the single neighbour entry `(0, 0, 1, 0)`: the
forward entry makes `1 ∈ compat[0][Right]`, yet `0 ∉ compat[1][Left]`, so
the symmetry the claim states does not hold.
-/

/-- C1: on the tile set `[X-tile 0, X-tile 1]` with the one neighbour entry
`(tile 0, orientation 0, tile 1, orientation 0)`, the propagator generated
by `generate_propagator` has `1 ∈ compat[0][Right]` but `0 ∉ compat[1][Left]`,
refuting the claimed symmetry `q ∈ compat[p][d] ⇔ p ∈ compat[q][opposite d]`. -/
theorem C1_generate_propagator_not_symmetric :
    (1 ∈ ((generatePropagator [(0, 0, 1, 0)]
        [Tile.new (Vec2D.fromVec [0] 1 1) .X 1, Tile.new (Vec2D.fromVec [1] 1 1) .X 1]
        (generateOrientedTileIds
          [Tile.new (Vec2D.fromVec [0] 1 1) .X 1,
            Tile.new (Vec2D.fromVec [1] 1 1) .X 1]).1
        (generateOrientedTileIds
          [Tile.new (Vec2D.fromVec [0] 1 1) .X 1,
            Tile.new (Vec2D.fromVec [1] 1 1) .X 1]).2).getD 0 default).get .right) ∧
      ¬ (0 ∈ ((generatePropagator [(0, 0, 1, 0)]
        [Tile.new (Vec2D.fromVec [0] 1 1) .X 1, Tile.new (Vec2D.fromVec [1] 1 1) .X 1]
        (generateOrientedTileIds
          [Tile.new (Vec2D.fromVec [0] 1 1) .X 1,
            Tile.new (Vec2D.fromVec [1] 1 1) .X 1]).1
        (generateOrientedTileIds
          [Tile.new (Vec2D.fromVec [0] 1 1) .X 1,
            Tile.new (Vec2D.fromVec [1] 1 1) .X 1]).2).getD 1 default).get .left) := by
  decide

/-!
Claim C3. The spec's rendering formula maps output cell `(i, j)` with
`i < N` to the pattern at cell `(i, ...)` at offset `0`; the code
(`OverlappingWFC::to_image`, non-periodic branch) maps it to the pattern at
cell `0` at offset `i`. The two disagree on raw pattern assignments, and the
spec's "top-left block is filled from pattern origins" consequence fails on
the code. The claim is corrected to the code's formula
`(i2, di) = (0, i)` for `i < N`.
-/

/-- C3 counterexample: with `pattern_size = 2`, output `2 × 2`, patterns
`[[0,1],[2,3]]` and `[[9,9],[9,9]]` and chosen patterns `[[0,1],[1,1]]`,
the code's `to_image` puts symbol `1` at cell `(0, 1)` (offset `(0, 1)` of
the pattern chosen at `(0, 0)`), while the claimed formula puts symbol `9`
there (offset `(0, 0)` of the pattern chosen at `(0, 1)`). -/
theorem C3_to_image_counterexample :
    (toImage ⟨false, false, 2, 2, 1, 2, false⟩
        [Vec2D.fromVec [0, 1, 2, 3] 2 2, Vec2D.fromVec [9, 9, 9, 9] 2 2]
        (Vec2D.fromVec [0, 1, 1, 1] 2 2)).get 0 1 = 1 ∧
      (toImageSpecC3 ⟨false, false, 2, 2, 1, 2, false⟩
        [Vec2D.fromVec [0, 1, 2, 3] 2 2, Vec2D.fromVec [9, 9, 9, 9] 2 2]
        (Vec2D.fromVec [0, 1, 1, 1] 2 2)).get 0 1 = 9 ∧
      (toImage ⟨false, false, 2, 2, 1, 2, false⟩
        [Vec2D.fromVec [0, 1, 2, 3] 2 2, Vec2D.fromVec [9, 9, 9, 9] 2 2]
        (Vec2D.fromVec [0, 1, 1, 1] 2 2)).get 0 1 ≠
      (toImageSpecC3 ⟨false, false, 2, 2, 1, 2, false⟩
        [Vec2D.fromVec [0, 1, 2, 3] 2 2, Vec2D.fromVec [9, 9, 9, 9] 2 2]
        (Vec2D.fromVec [0, 1, 1, 1] 2 2)).get 0 1 := by
  refine ⟨rfl, rfl, ?_⟩
  decide

/-- C3 amended: with `periodic_output = false`, `to_image` maps each output
cell `(i, j)` (within the output bounds) to offset `(di, dj)` of the pattern
chosen at `(i2, j2)`, where `(i2, di) = (0, i)` if `i < N` and
`(i2, di) = (i - N + 1, N - 1)` otherwise (`N = pattern_size`), and
symmetrically for `j`; in particular cell `(0, 0)` reads the origin
`(0, 0)` of the pattern chosen at `(0, 0)`. -/
theorem C3_to_image_nonperiodic_cell {α : Type _} [Inhabited α]
    (options : OverlappingWFCOptions) (patterns : List (Vec2D α))
    (outputPatterns : Vec2D Nat) (i j : Nat)
    (hper : options.periodicOutput = false)
    (hi : i < options.outHeight) (hj : j < options.outWidth) :
    (toImage options patterns outputPatterns).get i j =
      (patterns.getD
        (outputPatterns.get
          (if i < options.patternSize then 0 else i - options.patternSize + 1)
          (if j < options.patternSize then 0 else j - options.patternSize + 1))
        default).get
        (if i < options.patternSize then i else options.patternSize - 1)
        (if j < options.patternSize then j else options.patternSize - 1) := by
  unfold toImage
  rw [hper]
  simp only [Bool.false_eq_true, if_false]
  rw [Vec2D.get_fromGenerator _ _ _ i j hi hj]
  by_cases h1 : i < options.patternSize <;> by_cases h2 : j < options.patternSize <;>
    simp [h1, h2]

/-- C3 witness: the amended formula evaluated at the counterexample input,
cell `(0, 1)`. -/
theorem C3_to_image_nonperiodic_cell_witness :
    (toImage ⟨false, false, 2, 2, 1, 2, false⟩
        [Vec2D.fromVec [0, 1, 2, 3] 2 2, Vec2D.fromVec [9, 9, 9, 9] 2 2]
        (Vec2D.fromVec [0, 1, 1, 1] 2 2)).get 0 1 =
      ([Vec2D.fromVec [0, 1, 2, 3] 2 2, Vec2D.fromVec [9, 9, 9, 9] 2 2].getD
        ((Vec2D.fromVec [0, 1, 1, 1] 2 2).get (if 0 < 2 then 0 else 0 - 2 + 1)
          (if 1 < 2 then 0 else 1 - 2 + 1)) default).get
        (if 0 < 2 then 0 else 2 - 1) (if 1 < 2 then 1 else 2 - 1) :=
  C3_to_image_nonperiodic_cell ⟨false, false, 2, 2, 1, 2, false⟩
    [Vec2D.fromVec [0, 1, 2, 3] 2 2, Vec2D.fromVec [9, 9, 9, 9] 2 2]
    (Vec2D.fromVec [0, 1, 1, 1] 2 2) 0 1 rfl (by decide) (by decide)

/-!
Claim C10: `generate_oriented_tile_ids` returns mutually inverse maps, with
ids assigned consecutively tile by tile, and a tile's `data().len()` is the
orientation count of its symmetry class.
-/

/-- Closed form of the `id_to_oriented_tile` flattening: the pairs
`(tileIndex, orientation)` listed tile by tile, tile indices starting at `n`. -/
def idPairsFrom (n : Nat) : List (Tile α) → List (Nat × Nat)
  | [] => []
  | t :: ts => ((List.range t.data.length).map fun j => (n, j)) ++ idPairsFrom (n + 1) ts

/-- Closed form of the `oriented_tile_ids` fold: consecutive id ranges, the
first starting at `n`. -/
def rangesFrom (n : Nat) : List (Tile α) → List (List Nat)
  | [] => []
  | t :: ts => List.range' n t.data.length :: rangesFrom (n + t.data.length) ts

/-- The oriented id assigned to orientation `0` of tile `t`: the total number
of oriented variants of the earlier tiles. -/
def tileOffset (tiles : List (Tile α)) (t : Nat) : Nat :=
  ((tiles.take t).map fun tile => tile.data.length).sum

theorem enumFrom_flatMap_pairs (tiles : List (Tile α)) :
    ∀ n : Nat, ((List.enumFrom n tiles).flatMap fun p =>
      (List.range p.2.data.length).map fun j => (p.1, j)) = idPairsFrom n tiles := by
  induction tiles with
  | nil => intro n; rfl
  | cons t ts ih =>
    intro n
    rw [List.enumFrom_cons, List.flatMap_cons, ih (n + 1)]
    rfl

theorem generateOrientedTileIds_fst (tiles : List (Tile α)) :
    (generateOrientedTileIds tiles).1 = idPairsFrom 0 tiles := by
  show ((List.enumFrom 0 tiles).flatMap _) = _
  exact enumFrom_flatMap_pairs tiles 0

theorem foldl_rangesFrom (tiles : List (Tile α)) :
    ∀ (n : Nat) (acc : List (List Nat)),
      (tiles.foldl
        (fun acc tile =>
          (acc.1 + tile.data.length, acc.2 ++ [List.range' acc.1 tile.data.length]))
        (n, acc)).2 = acc ++ rangesFrom n tiles := by
  induction tiles with
  | nil => intro n acc; simp [rangesFrom]
  | cons t ts ih =>
    intro n acc
    rw [List.foldl_cons, ih, rangesFrom]
    simp

theorem generateOrientedTileIds_snd (tiles : List (Tile α)) :
    (generateOrientedTileIds tiles).2 = rangesFrom 0 tiles := by
  show (tiles.foldl _ ((0 : Nat), ([] : List (List Nat)))).2 = _
  rw [foldl_rangesFrom tiles 0 []]
  rfl

theorem rangesFrom_getD [Inhabited α] (tiles : List (Tile α)) :
    ∀ (n t : Nat), t < tiles.length →
      (rangesFrom n tiles).getD t [] =
        List.range' (n + tileOffset tiles t) (tiles.getD t default).data.length := by
  induction tiles with
  | nil => intro n t ht; simp at ht
  | cons tile ts ih =>
    intro n t ht
    cases t with
    | zero => simp [rangesFrom, tileOffset]
    | succ t' =>
      simp only [rangesFrom, List.getD_cons_succ, List.getD_cons_succ]
      rw [ih (n + tile.data.length) t' (by simpa using ht)]
      have : tileOffset (tile :: ts) (t' + 1) = tile.data.length + tileOffset ts t' := by
        simp [tileOffset, List.take_succ_cons]
      rw [this]
      ring_nf

theorem idPairsFrom_getD [Inhabited α] (tiles : List (Tile α)) :
    ∀ (n t o : Nat), t < tiles.length → o < (tiles.getD t default).data.length →
      (idPairsFrom n tiles).getD (tileOffset tiles t + o) (0, 0) = (n + t, o) := by
  induction tiles with
  | nil => intro n t o ht _; simp at ht
  | cons tile ts ih =>
    intro n t o ht ho
    cases t with
    | zero =>
      simp only [tileOffset, List.take_zero, List.map_nil, List.sum_nil, Nat.zero_add]
      simp only [List.getD_cons_zero] at ho
      rw [idPairsFrom, List.getD_append _ _ _ _ (by simpa using ho)]
      rw [List.getD_eq_getElem?_getD, List.getElem?_map, List.getElem?_range ho]
      rfl
    | succ t' =>
      have hoff : tileOffset (tile :: ts) (t' + 1) = tile.data.length + tileOffset ts t' := by
        simp [tileOffset, List.take_succ_cons]
      rw [idPairsFrom, hoff]
      have hlen : ((List.range tile.data.length).map fun j => (n, j)).length =
          tile.data.length := by simp
      rw [List.getD_append_right _ _ _ _ (by omega)]
      rw [hlen]
      have harith : tile.data.length + tileOffset ts t' + o - tile.data.length =
          tileOffset ts t' + o := by omega
      rw [harith, ih (n + 1) t' o (by simpa using ht) (by simpa using ho)]
      simp [Nat.add_assoc, Nat.add_comm 1 t']

theorem idPairsFrom_length (tiles : List (Tile α)) :
    ∀ n : Nat, (idPairsFrom n tiles).length = (tiles.map fun t => t.data.length).sum := by
  induction tiles with
  | nil => intro n; rfl
  | cons t ts ih => intro n; simp [idPairsFrom, ih]

theorem gid_decompose [Inhabited α] (tiles : List (Tile α)) :
    ∀ gid : Nat, gid < (tiles.map fun t => t.data.length).sum →
      ∃ t o, t < tiles.length ∧ o < (tiles.getD t default).data.length ∧
        gid = tileOffset tiles t + o := by
  induction tiles with
  | nil => intro gid h; simp at h
  | cons tile ts ih =>
    intro gid h
    by_cases hg : gid < tile.data.length
    · exact ⟨0, gid, by simp, by simpa using hg, by simp [tileOffset]⟩
    · simp only [List.map_cons, List.sum_cons] at h
      obtain ⟨t, o, ht, ho, heq⟩ := ih (gid - tile.data.length) (by omega)
      refine ⟨t + 1, o, by simpa using ht, by simpa using ho, ?_⟩
      have : tileOffset (tile :: ts) (t + 1) = tile.data.length + tileOffset ts t := by
        simp [tileOffset, List.take_succ_cons]
      omega

/-- C10: for every tile list, the two maps returned by
`generate_oriented_tile_ids` are mutually inverse: (a) oriented ids are
assigned consecutively tile by tile (`oriented_tile_ids[t]` is the range of
length `tiles[t].data().len()` starting at the number of oriented variants of
the earlier tiles); (b) `id_to_oriented_tile[oriented_tile_ids[t][o]] = (t, o)`
for every in-range `t`, `o`; (c) conversely every oriented id `gid` is mapped
back to itself; and (d) for tiles built by `Tile::new`, `data().len()` is the
orientation count of the symmetry class (X = 1, I and backslash = 2,
T and L = 4, P = 8). -/
theorem C10_oriented_tile_ids_inverse {α : Type _} [Inhabited α] (tiles : List (Tile α)) :
    (∀ t, t < tiles.length →
      ((generateOrientedTileIds tiles).2).getD t [] =
        List.range' (tileOffset tiles t) (tiles.getD t default).data.length) ∧
    (∀ t o, t < tiles.length → o < (tiles.getD t default).data.length →
      ((generateOrientedTileIds tiles).1).getD
        ((((generateOrientedTileIds tiles).2).getD t []).getD o 0) (0, 0) = (t, o)) ∧
    (∀ gid, gid < ((generateOrientedTileIds tiles).1).length →
      ((((generateOrientedTileIds tiles).2).getD
          (((generateOrientedTileIds tiles).1).getD gid (0, 0)).1 []).getD
        (((generateOrientedTileIds tiles).1).getD gid (0, 0)).2 0) = gid) ∧
    (∀ (data : Vec2D α) (symmetry : Symmetry) (weight : Rat),
      (Tile.new data symmetry weight).data.length = symmetry.nbOfPossibleOrientations) := by
  have hfst := generateOrientedTileIds_fst tiles
  have hsnd := generateOrientedTileIds_snd tiles
  have hrange : ∀ t o, t < tiles.length → o < (tiles.getD t default).data.length →
      (((generateOrientedTileIds tiles).2).getD t []).getD o 0 = tileOffset tiles t + o := by
    intro t o ht ho
    rw [hsnd, rangesFrom_getD tiles 0 t ht, Nat.zero_add]
    rw [List.getD_eq_getElem?_getD, List.getElem?_range' _ _ (by simpa using ho)]
    simp
  refine ⟨?_, ?_, ?_, ?_⟩
  · intro t ht
    rw [hsnd, rangesFrom_getD tiles 0 t ht, Nat.zero_add]
  · intro t o ht ho
    rw [hrange t o ht ho, hfst, idPairsFrom_getD tiles 0 t o ht ho, Nat.zero_add]
  · intro gid hgid
    rw [hfst] at hgid ⊢
    rw [idPairsFrom_length tiles 0] at hgid
    obtain ⟨t, o, ht, ho, rfl⟩ := gid_decompose tiles gid hgid
    rw [idPairsFrom_getD tiles 0 t o ht ho, Nat.zero_add]
    exact hrange t o ht ho
  · intro data symmetry weight
    cases symmetry <;> rfl

/-- C10 witness: two tiles of classes `I` and `T` on a `1 × 1` content;
oriented ids are `[0, 1]` and `[2, 3, 4, 5]`, and the maps invert each other
at `t = 1`, `o = 2` (oriented id `4`). -/
theorem C10_oriented_tile_ids_inverse_witness :
    ((generateOrientedTileIds
        [Tile.new (Vec2D.fromVec [0] 1 1) .I 1, Tile.new (Vec2D.fromVec [1] 1 1) .T 1]).2).getD 1 [] =
      List.range' 2 4 ∧
    ((generateOrientedTileIds
        [Tile.new (Vec2D.fromVec [0] 1 1) .I 1, Tile.new (Vec2D.fromVec [1] 1 1) .T 1]).1).getD 4 (0, 0) =
      (1, 2) := by
  have h := C10_oriented_tile_ids_inverse (α := Nat)
    [Tile.new (Vec2D.fromVec [0] 1 1) .I 1, Tile.new (Vec2D.fromVec [1] 1 1) .T 1]
  refine ⟨?_, ?_⟩
  · have := h.1 1 (by decide)
    simpa using this
  · have := h.2.1 1 2 (by decide) (by decide)
    have h4 : (((generateOrientedTileIds
        [Tile.new (Vec2D.fromVec ([0] : List Nat) 1 1) .I 1,
          Tile.new (Vec2D.fromVec [1] 1 1) .T 1]).2).getD 1 []).getD 2 0 = 4 := by decide
    rwa [h4] at this

/-!
Claim C9: pattern extraction on the 3 × 3 input with `N = 2`, `symmetry = 1`,
non-periodic, and the general origin-range characterization.
-/

/-- Lookup in the occurrence-count association list (0 when absent). -/
def lookupCount [DecidableEq κ] : List (κ × Nat) → κ → Nat
  | [], _ => 0
  | (k', c) :: rest, k => if k = k' then c else lookupCount rest k

/-- Well-formedness of an occurrence-count map: keys are distinct and counts
positive (as maintained by `bumpCount`). -/
def goodMap [DecidableEq κ] (m : List (κ × Nat)) : Prop :=
  (m.map Prod.fst).Nodup ∧ ∀ p ∈ m, 0 < p.2

theorem lookupCount_bump_self [DecidableEq κ] :
    ∀ (m : List (κ × Nat)) (k : κ), lookupCount (bumpCount m k) k = lookupCount m k + 1 := by
  intro m k
  induction m with
  | nil => simp [bumpCount, lookupCount]
  | cons p rest ih =>
    obtain ⟨k', c⟩ := p
    by_cases h : k = k' <;> simp [bumpCount, lookupCount, h, ih]

theorem lookupCount_bump_ne [DecidableEq κ] :
    ∀ (m : List (κ × Nat)) (k0 k : κ), k ≠ k0 →
      lookupCount (bumpCount m k0) k = lookupCount m k := by
  intro m k0 k hne
  induction m with
  | nil => simp [bumpCount, lookupCount, hne]
  | cons p rest ih =>
    obtain ⟨k', c⟩ := p
    by_cases h : k0 = k' <;> by_cases h2 : k = k' <;>
      simp_all [bumpCount, lookupCount]

theorem lookupCount_foldl_bump [DecidableEq κ] :
    ∀ (L : List κ) (m : List (κ × Nat)) (k : κ),
      lookupCount (L.foldl bumpCount m) k = lookupCount m k + L.count k := by
  intro L
  induction L with
  | nil => intro m k; simp
  | cons a L ih =>
    intro m k
    rw [List.foldl_cons, ih, List.count_cons]
    by_cases h : k = a
    · subst h; rw [lookupCount_bump_self]; simp; omega
    · rw [lookupCount_bump_ne m a k h]
      have : (a == k) = false := by simpa using fun hc => h hc.symm
      rw [this]
      simp

theorem keys_bump [DecidableEq κ] (m : List (κ × Nat)) (k : κ) :
    (bumpCount m k).map Prod.fst =
      if k ∈ m.map Prod.fst then m.map Prod.fst else m.map Prod.fst ++ [k] := by
  induction m with
  | nil => simp [bumpCount]
  | cons p rest ih =>
    obtain ⟨k', c⟩ := p
    by_cases h : k = k'
    · subst h; simp [bumpCount]
    · by_cases h2 : k ∈ rest.map Prod.fst <;>
        simp_all [bumpCount]

theorem goodMap_bump [DecidableEq κ] (m : List (κ × Nat)) (k : κ)
    (h : goodMap m) : goodMap (bumpCount m k) := by
  obtain ⟨hnd, hpos⟩ := h
  constructor
  · rw [keys_bump]
    by_cases hm : k ∈ m.map Prod.fst
    · simpa [hm] using hnd
    · simp only [hm, if_false]
      rw [List.nodup_append]
      exact ⟨hnd, List.nodup_singleton k, by simpa using hm⟩
  · intro p hp
    induction m with
    | nil => simp [bumpCount] at hp; simp [hp]
    | cons q rest ih =>
      obtain ⟨k', c⟩ := q
      by_cases hk : k = k'
      · subst hk
        simp only [bumpCount, if_pos rfl] at hp
        rcases List.mem_cons.mp hp with h1 | h1
        · subst h1; have := hpos (k, c) (List.mem_cons_self _ _); omega
        · exact hpos p (List.mem_cons_of_mem _ h1)
      · simp only [bumpCount, if_neg hk] at hp
        rcases List.mem_cons.mp hp with h1 | h1
        · subst h1; exact hpos (k', c) (List.mem_cons_self _ _)
        · refine ih ?_ ?_ h1
          · simpa using hnd.of_cons
          · intro q hq; exact hpos q (List.mem_cons_of_mem _ hq)

theorem goodMap_foldl_bump [DecidableEq κ] :
    ∀ (L : List κ) (m : List (κ × Nat)), goodMap m → goodMap (L.foldl bumpCount m) := by
  intro L
  induction L with
  | nil => intro m h; exact h
  | cons a L ih => intro m h; exact ih (bumpCount m a) (goodMap_bump m a h)

theorem mem_goodMap_iff [DecidableEq κ] :
    ∀ (m : List (κ × Nat)), goodMap m →
      ∀ (k : κ) (c : Nat), ((k, c) ∈ m ↔ 0 < c ∧ lookupCount m k = c) := by
  intro m
  induction m with
  | nil => intro _ k c; simp [lookupCount]; omega
  | cons p rest ih =>
    intro hg k c
    obtain ⟨k', c'⟩ := p
    obtain ⟨hnd, hpos⟩ := hg
    have hrest : goodMap rest :=
      ⟨by simpa using hnd.of_cons, fun q hq => hpos q (List.mem_cons_of_mem _ hq)⟩
    have hk' : k' ∉ rest.map Prod.fst := by simpa using (List.nodup_cons.mp hnd).1
    constructor
    · intro hmem
      rcases List.mem_cons.mp hmem with h1 | h1
      · obtain ⟨rfl, rfl⟩ := Prod.mk.inj h1
        refine ⟨hpos (k, c) (List.mem_cons_self _ _), ?_⟩
        simp [lookupCount]
      · have hkk : k ≠ k' := by
          intro h; subst h
          exact hk' (List.mem_map.mpr ⟨(k, c), h1, rfl⟩)
        have := (ih hrest k c).mp h1
        exact ⟨this.1, by simpa [lookupCount, hkk] using this.2⟩
    · rintro ⟨hc, hl⟩
      by_cases hkk : k = k'
      · subst hkk
        simp only [lookupCount, if_pos rfl] at hl
        subst hl
        exact List.mem_cons_self _ _
      · simp only [lookupCount, if_neg hkk] at hl
        exact List.mem_cons_of_mem _ ((ih hrest k c).mpr ⟨hc, hl⟩)

/-- Membership in the occurrence-count map produced by folding `bumpCount`
over a list is exactly having a positive occurrence count in that list. -/
theorem mem_foldl_bump_iff [DecidableEq κ] (L : List κ) (k : κ) (c : Nat) :
    (k, c) ∈ L.foldl bumpCount [] ↔ 0 < c ∧ L.count k = c := by
  have hg : goodMap (L.foldl bumpCount ([] : List (κ × Nat))) :=
    goodMap_foldl_bump L [] ⟨List.nodup_nil, by simp⟩
  rw [mem_goodMap_iff _ hg, lookupCount_foldl_bump L [] k]
  simp [lookupCount]

/-- C9: on the 3 × 3 input `[[0,1,2],[3,4,5],[6,7,8]]` with
`periodic_input = false`, `N = 2`, `symmetry = 1`, `get_patterns` yields
exactly the four subwindows `[[0,1],[3,4]]`, `[[1,2],[4,5]]`, `[[3,4],[6,7]]`,
`[[4,5],[7,8]]`, each with occurrence count 1; and in general, with
`symmetry = 1` and `periodic_input = false`, a pattern is reported with
count `c` iff it occurs `c > 0` times among the toric `N × N` subwindows
whose top-left origins range over exactly `(H - N + 1) × (W - N + 1)`. -/
theorem C9_get_patterns :
    (getPatterns (Vec2D.fromVec [0, 1, 2, 3, 4, 5, 6, 7, 8] 3 3) false 2 1 =
      [(Vec2D.fromVec [0, 1, 3, 4] 2 2, 1), (Vec2D.fromVec [1, 2, 4, 5] 2 2, 1),
        (Vec2D.fromVec [3, 4, 6, 7] 2 2, 1), (Vec2D.fromVec [4, 5, 7, 8] 2 2, 1)]) ∧
    (∀ {α : Type} [DecidableEq α] [Inhabited α]
      (input : Vec2D α) (patternSize : Nat) (p : Vec2D α) (c : Nat),
      (p, c) ∈ getPatterns input false patternSize 1 ↔
        0 < c ∧
          ((List.range (input.height - patternSize + 1)).flatMap fun i =>
            (List.range (input.width - patternSize + 1)).map fun j =>
              input.getSubVec i j patternSize patternSize).count p = c) := by
  constructor
  · decide
  · intro α _ _ input patternSize p c
    have hsingle : ∀ (l : List Nat) (f : Nat → Vec2D α),
        (l.flatMap fun b => [f b]) = l.map f := by
      intro l f
      induction l with
      | nil => rfl
      | cons a l ih => simp [ih]
    have hbig : getPatterns input false patternSize 1 =
        ((List.range (input.height - patternSize + 1)).flatMap fun i =>
          (List.range (input.width - patternSize + 1)).map fun j =>
            input.getSubVec i j patternSize patternSize).foldl bumpCount [] := by
      unfold getPatterns
      simp only [Bool.false_eq_true, if_false]
      congr 1
      refine List.flatMap_congr ?_
      intro i _
      exact hsingle _ _
    rw [hbig, mem_foldl_bump_iff]

/-- C9 witness: the general characterization applied to the 3 × 3 input at
the pattern `[[0,1],[3,4]]` with count 1. -/
theorem C9_get_patterns_witness :
    (Vec2D.fromVec [0, 1, 3, 4] 2 2, 1) ∈
      getPatterns (Vec2D.fromVec [0, 1, 2, 3, 4, 5, 6, 7, 8] 3 3) false 2 1 :=
  (C9_get_patterns.2 (Vec2D.fromVec [0, 1, 2, 3, 4, 5, 6, 7, 8] 3 3) 2
    (Vec2D.fromVec [0, 1, 3, 4] 2 2) 1).mpr (by decide)

/-!
Claim C8: the overlapping compatibility table is symmetric by construction
for square patterns.
-/

theorem isCompatible_down_iff [DecidableEq α] [Inhabited α] (p1 p2 : Vec2D α) :
    isCompatible p1 p2 .down = true ↔
      ∀ y x, y + 1 < p2.height → x < p1.width → p1.get y x = p2.get (y + 1) x := by
  unfold isCompatible
  simp only [Direction.getCoordinates]
  norm_num [List.all_eq_true, List.mem_range', beq_iff_eq]
  constructor
  · intro h y x hy hx
    exact h y (by omega) x hx
  · intro h y hy x hx
    exact h y x (by omega) hx

theorem isCompatible_up_iff [DecidableEq α] [Inhabited α] (p1 p2 : Vec2D α) :
    isCompatible p1 p2 .up = true ↔
      ∀ y x, y + 1 < p1.width → x < p1.width → p1.get (y + 1) x = p2.get y x := by
  unfold isCompatible
  simp only [Direction.getCoordinates]
  norm_num [List.all_eq_true, List.mem_range', beq_iff_eq]
  constructor
  · intro h y x hy hx
    have h2 := h (1 + y) y (by omega) rfl x hx
    rw [Nat.add_comm 1 y] at h2
    simpa using h2
  · intro h y i hi hyeq x hx
    subst hyeq
    have h2 := h i x (by omega) hx
    rw [Nat.add_comm 1 i]
    simpa using h2

theorem isCompatible_right_iff [DecidableEq α] [Inhabited α] (p1 p2 : Vec2D α) :
    isCompatible p1 p2 .right = true ↔
      ∀ y x, y < p1.width → x + 1 < p1.width → p1.get y (x + 1) = p2.get y x := by
  unfold isCompatible
  simp only [Direction.getCoordinates]
  norm_num [List.all_eq_true, List.mem_range', beq_iff_eq]
  constructor
  · intro h y x hy hx
    have h2 := h y hy (1 + x) x (by omega) rfl
    rw [Nat.add_comm 1 x] at h2
    simpa using h2
  · intro h y hy x i hi hxeq
    subst hxeq
    have h2 := h y i hy (by omega)
    rw [Nat.add_comm 1 i]
    simpa using h2

theorem isCompatible_left_iff [DecidableEq α] [Inhabited α] (p1 p2 : Vec2D α) :
    isCompatible p1 p2 .left = true ↔
      ∀ y x, y < p1.width → x + 1 < p2.width → p1.get y x = p2.get y (x + 1) := by
  unfold isCompatible
  simp only [Direction.getCoordinates]
  norm_num [List.all_eq_true, List.mem_range', beq_iff_eq]
  constructor
  · intro h y x hy hx
    exact h y hy x (by omega)
  · intro h y hy x hx
    exact h y x hy (by omega)

/-- The compatibility check is symmetric under swapping the two patterns and
taking the opposite direction, for patterns of a common square shape. -/
theorem isCompatible_swap [DecidableEq α] [Inhabited α] (pa pb : Vec2D α) (N : Nat)
    (ha1 : pa.height = N) (ha2 : pa.width = N) (hb1 : pb.height = N) (hb2 : pb.width = N)
    (d : Direction) :
    isCompatible pa pb d = isCompatible pb pa d.opposite := by
  cases d with
  | down =>
    show isCompatible pa pb .down = isCompatible pb pa .up
    rw [Bool.eq_iff_iff, isCompatible_down_iff, isCompatible_up_iff,
      ha2, hb1, hb2]
    exact ⟨fun h y x hy hx => (h y x hy hx).symm, fun h y x hy hx => (h y x hy hx).symm⟩
  | up =>
    show isCompatible pa pb .up = isCompatible pb pa .down
    rw [Bool.eq_iff_iff, isCompatible_up_iff, isCompatible_down_iff,
      ha1, ha2, hb2]
    exact ⟨fun h y x hy hx => (h y x hy hx).symm, fun h y x hy hx => (h y x hy hx).symm⟩
  | left =>
    show isCompatible pa pb .left = isCompatible pb pa .right
    rw [Bool.eq_iff_iff, isCompatible_left_iff, isCompatible_right_iff,
      ha2, hb2]
    exact ⟨fun h y x hy hx => (h y x hy hx).symm, fun h y x hy hx => (h y x hy hx).symm⟩
  | right =>
    show isCompatible pa pb .right = isCompatible pb pa .left
    rw [Bool.eq_iff_iff, isCompatible_right_iff, isCompatible_left_iff,
      ha2, hb2]
    exact ⟨fun h y x hy hx => (h y x hy hx).symm, fun h y x hy hx => (h y x hy hx).symm⟩

/-- Membership in the precomputed compatibility lists unfolds to the
`is_compatible` check. -/
theorem mem_precomputeCompatible [DecidableEq α] [Inhabited α]
    (patterns : List (Vec2D α)) (a b : Nat) (ha : a < patterns.length) (d : Direction) :
    b ∈ ((precomputeCompatible patterns).getD a default).get d ↔
      b < patterns.length ∧
        isCompatible (patterns.getD a default) (patterns.getD b default) d = true := by
  have hmap : (precomputeCompatible patterns).getD a default =
      DirArray.newGenerator fun direction =>
        patterns.enum.filterMap fun p =>
          if isCompatible (patterns.getD a default) p.2 direction then some p.1 else none := by
    show (patterns.map _).getD a default = _
    rw [List.getD_eq_getElem _ _ (by simpa using ha), List.getElem_map,
      List.getD_eq_getElem _ _ ha]
  rw [hmap]
  have hgen : ∀ (g : Direction → List Nat), (DirArray.newGenerator g).get d = g d := by
    intro g; cases d <;> rfl
  rw [hgen, List.mem_filterMap]
  constructor
  · rintro ⟨p, hp, hsome⟩
    by_cases hc : isCompatible (patterns.getD a default) p.2 d = true
    · rw [if_pos hc] at hsome
      obtain rfl : p.1 = b := Option.some.inj hsome
      obtain ⟨hlt, hval⟩ := List.mem_enum hp
      refine ⟨hlt, ?_⟩
      rw [List.getD_eq_getElem _ _ hlt, ← hval]
      exact hc
    · rw [if_neg hc] at hsome
      exact absurd hsome (by simp)
  · rintro ⟨hb, hc⟩
    refine ⟨(b, patterns.getD b default), ?_, by rw [if_pos hc]⟩
    apply List.mem_iff_getElem?.mpr
    refine ⟨b, ?_⟩
    rw [List.getElem?_enum, List.getElem?_eq_getElem hb, List.getD_eq_getElem _ _ hb]
    rfl

/-- C8: for every list of square `N × N` patterns (`N ≥ 1`) and every
direction `d`, pattern `b` is in `precompute_compatible(patterns)[a][d]`
iff pattern `a` is in `precompute_compatible(patterns)[b][opposite(d)]`. -/
theorem C8_precompute_compatible_symmetric {α : Type _} [DecidableEq α] [Inhabited α]
    (patterns : List (Vec2D α)) (N : Nat) (_hN : 1 ≤ N)
    (hsq : ∀ p ∈ patterns, p.height = N ∧ p.width = N)
    (a b : Nat) (ha : a < patterns.length) (hb : b < patterns.length) (d : Direction) :
    b ∈ ((precomputeCompatible patterns).getD a default).get d ↔
      a ∈ ((precomputeCompatible patterns).getD b default).get d.opposite := by
  have hmemA : patterns.getD a default ∈ patterns := by
    rw [List.getD_eq_getElem _ _ ha]
    exact List.getElem_mem ha
  have hmemB : patterns.getD b default ∈ patterns := by
    rw [List.getD_eq_getElem _ _ hb]
    exact List.getElem_mem hb
  obtain ⟨haH, haW⟩ := hsq _ hmemA
  obtain ⟨hbH, hbW⟩ := hsq _ hmemB
  rw [mem_precomputeCompatible patterns a b ha d,
    mem_precomputeCompatible patterns b a hb d.opposite,
    isCompatible_swap _ _ N haH haW hbH hbW d]
  exact ⟨fun h => ⟨ha, h.2⟩, fun h => ⟨hb, h.2⟩⟩

/-- C8 witness: the doc-test patterns of `is_compatible` (3 × 3), checked at
`a = 0`, `b = 1`, direction `Right`. -/
theorem C8_precompute_compatible_symmetric_witness :
    (1 ∈ ((precomputeCompatible
        [Vec2D.fromVec [1, 2, 3, 4, 5, 6, 7, 8, 9] 3 3,
          Vec2D.fromVec [2, 3, 0, 5, 6, 0, 8, 9, 0] 3 3]).getD 0 default).get .right ↔
      0 ∈ ((precomputeCompatible
        [Vec2D.fromVec [1, 2, 3, 4, 5, 6, 7, 8, 9] 3 3,
          Vec2D.fromVec [2, 3, 0, 5, 6, 0, 8, 9, 0] 3 3]).getD 1 default).get .left) ∧
    1 ∈ ((precomputeCompatible
        [Vec2D.fromVec [1, 2, 3, 4, 5, 6, 7, 8, 9] 3 3,
          Vec2D.fromVec [2, 3, 0, 5, 6, 0, 8, 9, 0] 3 3]).getD 0 default).get .right := by
  constructor
  · exact C8_precompute_compatible_symmetric
      [Vec2D.fromVec [1, 2, 3, 4, 5, 6, 7, 8, 9] 3 3,
        Vec2D.fromVec [2, 3, 0, 5, 6, 0, 8, 9, 0] 3 3] 3 (by decide)
      (by decide) 0 1 (by decide) (by decide) .right
  · decide

/-!
Claim C5: the entropy memo stays consistent with the allow-set under any
sequence of `Wave::unset` calls.
-/

/-- A sequence of `Wave::unset` calls. -/
def applyWaveUnsets [Field α] (lg : α → α) (ops : List (Nat × Nat × Nat)) (w : WaveS α) :
    WaveS α :=
  ops.foldl (fun w op => w.unset lg op.1 op.2.1 op.2.2) w

/-- The allow-set of cell `(y, x)`: the patterns still allowed there. -/
def allowedSet (w : WaveS α) (y x : Nat) : Finset Nat :=
  (Finset.range w.weights.length).filter fun p => w.data y x p = true

/-- Consistency of the entropy memo with the allow-set in every cell. -/
def memoConsistent [Field α] (lg : α → α) (w : WaveS α) : Prop :=
  ∀ y x : Nat,
    (w.memo y x).sum = ∑ p ∈ allowedSet w y x, w.weights.getD p 0 ∧
    (w.memo y x).plogpSum =
      ∑ p ∈ allowedSet w y x, w.weights.getD p 0 * lg (w.weights.getD p 0) ∧
    (w.memo y x).nPatterns = (allowedSet w y x).card

theorem sum_range_getD {α β : Type _} [AddCommMonoid β] (l : List α) (d : α) (g : α → β) :
    ∑ p ∈ Finset.range l.length, g (l.getD p d) = (l.map g).sum := by
  induction l with
  | nil => simp
  | cons a l ih =>
    rw [List.length_cons, Finset.sum_range_succ']
    simp only [List.getD_cons_succ, List.getD_cons_zero, List.map_cons, List.sum_cons]
    rw [ih]
    exact add_comm _ _

theorem WaveS.unset_weights [Field α] (lg : α → α) (w : WaveS α) (y x p : Nat) :
    (w.unset lg y x p).weights = w.weights := by
  unfold WaveS.unset
  by_cases hd : w.data y x p <;> simp [hd]

theorem WaveS.unset_data_true [Field α] (lg : α → α) (w : WaveS α) (y x p : Nat)
    (hd : w.data y x p = true) :
    (w.unset lg y x p).data = fun i' j' p' =>
      if i' = y ∧ j' = x ∧ p' = p then false else w.data i' j' p' := by
  unfold WaveS.unset
  rw [if_pos hd]

theorem WaveS.unset_memo_true [Field α] (lg : α → α) (w : WaveS α) (y x p : Nat)
    (hd : w.data y x p = true) :
    (w.unset lg y x p).memo = fun i' j' =>
      if i' = y ∧ j' = x then (w.memo y x).update lg (w.weights.getD p 0)
      else w.memo i' j' := by
  unfold WaveS.unset
  rw [if_pos hd]

theorem WaveS.unset_noop [Field α] (lg : α → α) (w : WaveS α) (y x p : Nat)
    (hd : ¬ w.data y x p = true) : w.unset lg y x p = w := by
  unfold WaveS.unset
  rw [if_neg (by simpa using hd)]

theorem MemoCell.update_sum [Field α] (c : MemoCell α) (lg : α → α) (wt : α) :
    (c.update lg wt).sum = c.sum - wt := rfl

theorem MemoCell.update_plogpSum [Field α] (c : MemoCell α) (lg : α → α) (wt : α) :
    (c.update lg wt).plogpSum = c.plogpSum - wt * lg wt := rfl

theorem MemoCell.update_nPatterns [Field α] (c : MemoCell α) (lg : α → α) (wt : α) :
    (c.update lg wt).nPatterns = c.nPatterns - 1 := rfl

theorem memoConsistent_new [Field α] (lg : α → α) (height width : Nat) (weights : List α) :
    memoConsistent lg (WaveS.new lg height width weights) := by
  intro y x
  have hall : allowedSet (WaveS.new lg height width weights) y x =
      Finset.range weights.length := by
    unfold allowedSet WaveS.new
    simp
  have hw : (WaveS.new lg height width weights).weights = weights := rfl
  have hm : (WaveS.new lg height width weights).memo y x = MemoCell.init lg weights := rfl
  rw [hall, hw, hm]
  refine ⟨?_, ?_, ?_⟩
  · show weights.sum = _
    have := sum_range_getD weights 0 (id : α → α)
    rw [List.map_id] at this
    exact this.symm
  · show (weights.map fun x => x * lg x).sum = _
    exact (sum_range_getD weights 0 fun wt => wt * lg wt).symm
  · show weights.length = _
    rw [Finset.card_range]

theorem memoConsistent_unset [Field α] (lg : α → α) (w : WaveS α)
    (h : memoConsistent lg w) (y x p : Nat) (hp : p < w.weights.length) :
    memoConsistent lg (w.unset lg y x p) := by
  by_cases hd : w.data y x p = true
  · intro y' x'
    have hdata := WaveS.unset_data_true lg w y x p hd
    have hmemo := WaveS.unset_memo_true lg w y x p hd
    have hwts := WaveS.unset_weights lg w y x p
    by_cases hcell : y' = y ∧ x' = x
    · obtain ⟨rfl, rfl⟩ := hcell
      have hmem : p ∈ allowedSet w y' x' := by
        unfold allowedSet
        rw [Finset.mem_filter, Finset.mem_range]
        exact ⟨hp, hd⟩
      have hset : allowedSet (w.unset lg y' x' p) y' x' = (allowedSet w y' x').erase p := by
        unfold allowedSet
        ext q
        rw [hwts, hdata]
        simp only [Finset.mem_filter, Finset.mem_range, Finset.mem_erase]
        constructor
        · rintro ⟨hq, hdq⟩
          by_cases hqp : q = p
          · subst hqp; simp at hdq
          · refine ⟨hqp, hq, ?_⟩
            simpa [hqp] using hdq
        · rintro ⟨hqp, hq, hdq⟩
          exact ⟨hq, by simpa [hqp] using hdq⟩
      have hmc : (w.unset lg y' x' p).memo y' x' =
          (w.memo y' x').update lg (w.weights.getD p 0) := by
        rw [hmemo]
        simp
      obtain ⟨hs, hpl, hn⟩ := h y' x'
      rw [hset, hmc, hwts]
      refine ⟨?_, ?_, ?_⟩
      · rw [MemoCell.update_sum, hs, sub_eq_iff_eq_add]
        exact (Finset.sum_erase_add _ _ hmem).symm
      · rw [MemoCell.update_plogpSum, hpl, sub_eq_iff_eq_add]
        exact (Finset.sum_erase_add _ _ hmem).symm
      · rw [MemoCell.update_nPatterns, hn, Finset.card_erase_of_mem hmem]
    · have hset : allowedSet (w.unset lg y x p) y' x' = allowedSet w y' x' := by
        unfold allowedSet
        ext q
        rw [hwts, hdata]
        simp only [Finset.mem_filter, Finset.mem_range]
        have hco : ¬ (y' = y ∧ x' = x ∧ q = p) := fun hco => hcell ⟨hco.1, hco.2.1⟩
        rw [if_neg hco]
      have hmc : (w.unset lg y x p).memo y' x' = w.memo y' x' := by
        rw [hmemo]
        simp only [if_neg hcell]
      rw [hset, hmc, hwts]
      exact h y' x'
  · rw [WaveS.unset_noop lg w y x p hd]
    exact h

theorem memoConsistent_applyWaveUnsets [Field α] (lg : α → α) :
    ∀ (ops : List (Nat × Nat × Nat)) (w : WaveS α), memoConsistent lg w →
      (∀ op ∈ ops, op.2.2 < w.weights.length) →
      memoConsistent lg (applyWaveUnsets lg ops w) := by
  intro ops
  induction ops with
  | nil => intro w h _; exact h
  | cons op ops ih =>
    intro w h hb
    have hw : (w.unset lg op.1 op.2.1 op.2.2).weights = w.weights := by
      unfold WaveS.unset
      by_cases hd : w.data op.1 op.2.1 op.2.2 <;> simp [hd]
    refine ih (w.unset lg op.1 op.2.1 op.2.2)
      (memoConsistent_unset lg w h op.1 op.2.1 op.2.2 (hb op (List.mem_cons_self _ _))) ?_
    intro q hq
    rw [hw]
    exact hb q (List.mem_cons_of_mem _ hq)

/-- C5: starting from `Wave::new(H, W, weights)` with strictly positive
weights, after any sequence of in-range `unset` calls the entropy memo of
every cell is consistent with the allow-set: `sum` is the total weight of the
allowed patterns, `plogp_sum` the total `w * ln w`, `n_patterns` their
number; consequently `get_entropy(y, x) = ln(S) - Q / S` with `S`, `Q` those
explicit sums. -/
theorem C5_entropy_memo_consistent {α : Type _} [LinearOrderedField α] (lg : α → α)
    (height width : Nat) (weights : List α) (ops : List (Nat × Nat × Nat))
    (_hpos : ∀ wt ∈ weights, 0 < wt)
    (hops : ∀ op ∈ ops, op.2.2 < weights.length) (y x : Nat) :
    ((applyWaveUnsets lg ops (WaveS.new lg height width weights)).memo y x).sum =
      (∑ p ∈ allowedSet (applyWaveUnsets lg ops (WaveS.new lg height width weights)) y x,
        weights.getD p 0) ∧
    ((applyWaveUnsets lg ops (WaveS.new lg height width weights)).memo y x).plogpSum =
      (∑ p ∈ allowedSet (applyWaveUnsets lg ops (WaveS.new lg height width weights)) y x,
        weights.getD p 0 * lg (weights.getD p 0)) ∧
    ((applyWaveUnsets lg ops (WaveS.new lg height width weights)).memo y x).nPatterns =
      (allowedSet (applyWaveUnsets lg ops (WaveS.new lg height width weights)) y x).card ∧
    (applyWaveUnsets lg ops (WaveS.new lg height width weights)).getEntropy lg y x =
      lg (∑ p ∈ allowedSet (applyWaveUnsets lg ops (WaveS.new lg height width weights)) y x,
          weights.getD p 0) -
        (∑ p ∈ allowedSet (applyWaveUnsets lg ops (WaveS.new lg height width weights)) y x,
          weights.getD p 0 * lg (weights.getD p 0)) /
        (∑ p ∈ allowedSet (applyWaveUnsets lg ops (WaveS.new lg height width weights)) y x,
          weights.getD p 0) := by
  have hwts : ∀ (ops : List (Nat × Nat × Nat)) (w : WaveS α),
      (applyWaveUnsets lg ops w).weights = w.weights := by
    intro ops
    induction ops with
    | nil => intro w; rfl
    | cons op ops ih =>
      intro w
      show (applyWaveUnsets lg ops (w.unset lg op.1 op.2.1 op.2.2)).weights = _
      rw [ih]
      unfold WaveS.unset
      by_cases hd : w.data op.1 op.2.1 op.2.2 <;> simp [hd]
  have hmc := memoConsistent_applyWaveUnsets lg ops (WaveS.new lg height width weights)
    (memoConsistent_new lg height width weights) (by intro op hop; exact hops op hop)
  obtain ⟨hs, hpl, hn⟩ := hmc y x
  have hwe : (applyWaveUnsets lg ops (WaveS.new lg height width weights)).weights =
      weights := hwts ops _
  rw [hwe] at hs hpl
  refine ⟨hs, hpl, hn, ?_⟩
  show ((applyWaveUnsets lg ops (WaveS.new lg height width weights)).memo y x).entropy lg = _
  unfold MemoCell.entropy
  rw [hs, hpl]

/-- C5 witness: weights `[1, 2]` on a `1 × 1` wave, banning pattern `0` at
cell `(0, 0)`; the memo then reads `sum = 2`, `plogp_sum = 2 * lg 2`,
`n_patterns = 1` (with `lg` the identity standing for `ln`). -/
theorem C5_entropy_memo_consistent_witness :
    ((applyWaveUnsets (fun x => x) [(0, 0, 0)]
        (WaveS.new (fun x => x) 1 1 [(1 : Rat), 2])).memo 0 0).sum =
      (∑ p ∈ allowedSet (applyWaveUnsets (fun x => x) [(0, 0, 0)]
          (WaveS.new (fun x => x) 1 1 [(1 : Rat), 2])) 0 0,
        ([(1 : Rat), 2]).getD p 0) :=
  (C5_entropy_memo_consistent (fun x => x) 1 1 [(1 : Rat), 2] [(0, 0, 0)]
    (by decide) (by decide) 0 0).1

/-!
Claim C6: the wave is monotone during a solve — `Propagator::unset` and the
propagation it triggers only ever change wave entries from true to false.
-/

/-- `waveShrinks s t`: every pattern allowed in `t`'s wave was already
allowed in `s`'s wave (state `t` is reached from `s` by bans only). -/
def waveShrinks (s t : PState α) : Prop :=
  ∀ y x p, t.wave.data y x p = true → s.wave.data y x p = true

theorem waveShrinks_refl (s : PState α) : waveShrinks s s := fun _ _ _ h => h

theorem waveShrinks_trans {s t u : PState α} (h1 : waveShrinks s t)
    (h2 : waveShrinks t u) : waveShrinks s u :=
  fun y x p h => h1 y x p (h2 y x p h)

theorem WaveS.unset_data_le [Field α] (lg : α → α) (w : WaveS α) (y x p i j q : Nat)
    (h : (w.unset lg y x p).data i j q = true) : w.data i j q = true := by
  by_cases hd : w.data y x p = true
  · rw [WaveS.unset_data_true lg w y x p hd] at h
    have h2 : (if i = y ∧ j = x ∧ q = p then false else w.data i j q) = true := h
    by_cases hc : i = y ∧ j = x ∧ q = p
    · rw [if_pos hc] at h2; cases h2
    · rwa [if_neg hc] at h2
  · rwa [WaveS.unset_noop lg w y x p hd] at h

theorem waveShrinks_decrementPattern [Field α] (lg : α → α) (direction : Direction)
    (y2 x2 : Nat) (s : PState α) (pattern2 : Nat) :
    waveShrinks s (decrementPattern lg direction y2 x2 s pattern2) := by
  intro y x p
  unfold decrementPattern
  by_cases hv : (s.compatible y2 x2 pattern2).get direction - 1 = 0
  · rw [if_pos hv]
    exact WaveS.unset_data_le lg s.wave y2 x2 pattern2 y x p
  · rw [if_neg hv]
    exact fun h => h

theorem waveShrinks_foldl {β : Type _} (f : PState α → β → PState α)
    (hf : ∀ s b, waveShrinks s (f s b)) :
    ∀ (l : List β) (s : PState α), waveShrinks s (l.foldl f s) := by
  intro l
  induction l with
  | nil => intro s; exact waveShrinks_refl s
  | cons b l ih =>
    intro s
    exact waveShrinks_trans (hf s b) (ih (f s b))

theorem waveShrinks_propagateDir [Field α] (lg : α → α) (y1 x1 pattern : Nat)
    (s : PState α) (direction : Direction) :
    waveShrinks s (propagateDir lg y1 x1 pattern s direction) := by
  unfold propagateDir
  cases neighborCoords s.isToric s.wave.height s.wave.width y1 x1
    direction.getCoordinates.1 direction.getCoordinates.2 with
  | none => exact waveShrinks_refl s
  | some yx2 =>
    exact waveShrinks_foldl _ (waveShrinks_decrementPattern lg direction yx2.1 yx2.2) _ s

theorem waveShrinks_propagateOnce [Field α] (lg : α → α) (y1 x1 pattern : Nat)
    (s : PState α) : waveShrinks s (propagateOnce lg y1 x1 pattern s) := by
  unfold propagateOnce
  have hdir : ∀ (t : PState α) (d : Direction),
      waveShrinks t (propagateDir lg y1 x1 pattern t d) :=
    fun t d => waveShrinks_propagateDir lg y1 x1 pattern t d
  exact waveShrinks_foldl _ hdir _ s

theorem waveShrinks_propagate [Field α] (lg : α → α) :
    ∀ (fuel : Nat) (s : PState α), waveShrinks s (Propagator.propagate lg fuel s) := by
  intro fuel
  induction fuel with
  | zero => intro s; exact waveShrinks_refl s
  | succ fuel ih =>
    intro s
    show waveShrinks s (Propagator.propagate lg (fuel + 1) s)
    unfold Propagator.propagate
    cases hq : s.propagatingQueue with
    | nil => exact waveShrinks_refl s
    | cons hd rest =>
      obtain ⟨y1, x1, pattern⟩ := hd
      refine waveShrinks_trans (t := { s with propagatingQueue := rest }) ?_
        (waveShrinks_trans (waveShrinks_propagateOnce lg y1 x1 pattern _) (ih _))
      exact fun y x p h => h

theorem waveShrinks_unset [Field α] (lg : α → α) (fuel : Nat) (s : PState α)
    (y x pattern : Nat) : waveShrinks s (Propagator.unset lg fuel s y x pattern) := by
  unfold Propagator.unset
  by_cases hd : s.wave.data y x pattern
  · rw [if_pos hd]
    refine waveShrinks_trans ?_ (waveShrinks_propagate lg fuel _)
    intro y' x' p' h
    exact WaveS.unset_data_le lg s.wave y x pattern y' x' p' h
  · rw [if_neg hd]
    exact waveShrinks_refl s

theorem waveShrinks_applyUnsets [Field α] (lg : α → α) (fuel : Nat)
    (ops : List (Nat × Nat × Nat)) (s : PState α) :
    waveShrinks s (applyUnsets lg fuel ops s) := by
  unfold applyUnsets
  exact waveShrinks_foldl _ (fun t op => waveShrinks_unset lg fuel t op.1 op.2.1 op.2.2) ops s

/-- Banned wave entries stay banned under any further `unset` calls. -/
theorem wave_banned_applyUnsets [Field α] (lg : α → α) (fuel : Nat)
    (ops : List (Nat × Nat × Nat)) (s : PState α) (y x p : Nat)
    (hban : s.wave.data y x p = false) :
    (applyUnsets lg fuel ops s).wave.data y x p = false := by
  by_contra hc
  have htrue : (applyUnsets lg fuel ops s).wave.data y x p = true := by
    cases h : (applyUnsets lg fuel ops s).wave.data y x p
    · exact absurd h hc
    · rfl
  have := waveShrinks_applyUnsets lg fuel ops s y x p htrue
  rw [hban] at this
  cases this

/-- C6: the wave is monotone during a solve: under any sequence of
`Propagator::unset` calls (including the propagation they trigger, at any
fuel) and with no reset in between, once `Wave::get(y, x, p)` is false it
never becomes true again. -/
theorem C6_wave_monotone {α : Type _} [Field α] (lg : α → α) (fuel : Nat)
    (ops : List (Nat × Nat × Nat)) (s : PState α) (y x p : Nat)
    (hban : s.wave.data y x p = false) :
    (applyUnsets lg fuel ops s).wave.data y x p = false :=
  wave_banned_applyUnsets lg fuel ops s y x p hban

/-- C6 witness: in the one-pattern `1 × 3` non-toric propagator, pattern `0`
is banned at `(0, 1)`; a further `unset` call elsewhere leaves it banned. -/
theorem C6_wave_monotone_witness :
    (applyUnsets (fun x : Rat => x) 10 [(0, 0, 0)]
      (Propagator.unset (fun x : Rat => x) 10
        (Propagator.new (fun x : Rat => x) 1 3 [(1 : Rat)]
          [DirArray.newConst [0]] false) 0 1 0)).wave.data 0 1 0 = false :=
  C6_wave_monotone (fun x : Rat => x) 10 [(0, 0, 0)]
    (Propagator.unset (fun x : Rat => x) 10
      (Propagator.new (fun x : Rat => x) 1 3 [(1 : Rat)]
        [DirArray.newConst [0]] false) 0 1 0) 0 1 0 (by decide)

/-!
Claim C2. Once a pattern is banned at a cell its four support counters are
zeroed, but they do not remain equal to 0: a later propagation step that
pops a neighbouring ban decrements them further (the source's own comment on
`compatible` says the entries of a banned pattern are "negative or null").
The counterexample below exhibits a counter equal to `-1`; the amended claim
(counters nonpositive from the ban onwards) is proved as an invariant.
-/

/-- The amended counter property: every banned pattern has all four support
counters nonpositive. -/
def counterInv (s : PState α) : Prop :=
  ∀ y x p, s.wave.data y x p = false → ∀ d, (s.compatible y x p).get d ≤ 0

theorem updCompatible_apply (f : Nat → Nat → Nat → DirArray Int) (y x pattern : Nat)
    (v : DirArray Int) (y' x' p' : Nat) :
    updCompatible f y x pattern v y' x' p' =
      if y' = y ∧ x' = x ∧ p' = pattern then v else f y' x' p' := rfl

theorem DirArray.get_setDir (a : DirArray α) (d d' : Direction) (v : α) :
    (a.setDir d v).get d' = if d' = d then v else a.get d' := by
  cases d <;> cases d' <;> simp [DirArray.setDir, DirArray.get]

theorem DirArray.get_newConst (v : α) (d : Direction) :
    (DirArray.newConst v).get d = v := by
  cases d <;> rfl

theorem WaveS.unset_data_self [Field α] (lg : α → α) (w : WaveS α) (y x p : Nat) :
    (w.unset lg y x p).data y x p = false := by
  by_cases hd : w.data y x p = true
  · rw [WaveS.unset_data_true lg w y x p hd]
    simp
  · rw [WaveS.unset_noop lg w y x p hd]
    simpa using hd

theorem WaveS.unset_data_ne [Field α] (lg : α → α) (w : WaveS α) (y x p i j q : Nat)
    (hne : ¬ (i = y ∧ j = x ∧ q = p)) :
    (w.unset lg y x p).data i j q = w.data i j q := by
  by_cases hd : w.data y x p = true
  · rw [WaveS.unset_data_true lg w y x p hd]
    exact if_neg hne
  · rw [WaveS.unset_noop lg w y x p hd]

theorem counterInv_decrementPattern [Field α] (lg : α → α) (direction : Direction)
    (y2 x2 : Nat) (s : PState α) (pattern2 : Nat) (hInv : counterInv s) :
    counterInv (decrementPattern lg direction y2 x2 s pattern2) := by
  unfold decrementPattern
  by_cases hv : (s.compatible y2 x2 pattern2).get direction - 1 = 0
  · rw [if_pos hv]
    intro y x p hdata d
    have hdata' : (s.wave.unset lg y2 x2 pattern2).data y x p = false := hdata
    show (updCompatible
      (updCompatible s.compatible y2 x2 pattern2
        ((s.compatible y2 x2 pattern2).setDir direction
          ((s.compatible y2 x2 pattern2).get direction - 1)))
      y2 x2 pattern2 (DirArray.newConst 0) y x p).get d ≤ 0
    rw [updCompatible_apply]
    by_cases hc : y = y2 ∧ x = x2 ∧ p = pattern2
    · rw [if_pos hc, DirArray.get_newConst]
    · rw [if_neg hc, updCompatible_apply, if_neg hc]
      rw [WaveS.unset_data_ne lg s.wave y2 x2 pattern2 y x p hc] at hdata'
      exact hInv y x p hdata' d
  · rw [if_neg hv]
    intro y x p hdata d
    have hdata' : s.wave.data y x p = false := hdata
    show (updCompatible s.compatible y2 x2 pattern2
      ((s.compatible y2 x2 pattern2).setDir direction
        ((s.compatible y2 x2 pattern2).get direction - 1)) y x p).get d ≤ 0
    rw [updCompatible_apply]
    by_cases hc : y = y2 ∧ x = x2 ∧ p = pattern2
    · obtain ⟨rfl, rfl, rfl⟩ := hc
      rw [if_pos ⟨rfl, rfl, rfl⟩, DirArray.get_setDir]
      by_cases hdd : d = direction
      · rw [if_pos hdd]
        have := hInv y x p hdata' direction
        omega
      · rw [if_neg hdd]
        exact hInv y x p hdata' d
    · rw [if_neg hc]
      exact hInv y x p hdata' d

theorem counterInv_foldl {β : Type _} (f : PState α → β → PState α)
    (hf : ∀ s b, counterInv s → counterInv (f s b)) :
    ∀ (l : List β) (s : PState α), counterInv s → counterInv (l.foldl f s) := by
  intro l
  induction l with
  | nil => intro s h; exact h
  | cons b l ih => intro s h; exact ih (f s b) (hf s b h)

theorem counterInv_propagateDir [Field α] (lg : α → α) (y1 x1 pattern : Nat)
    (s : PState α) (direction : Direction) (hInv : counterInv s) :
    counterInv (propagateDir lg y1 x1 pattern s direction) := by
  unfold propagateDir
  cases neighborCoords s.isToric s.wave.height s.wave.width y1 x1
    direction.getCoordinates.1 direction.getCoordinates.2 with
  | none => exact hInv
  | some yx2 =>
    exact counterInv_foldl _
      (fun t b => counterInv_decrementPattern lg direction yx2.1 yx2.2 t b) _ s hInv

theorem counterInv_propagateOnce [Field α] (lg : α → α) (y1 x1 pattern : Nat)
    (s : PState α) (hInv : counterInv s) :
    counterInv (propagateOnce lg y1 x1 pattern s) := by
  unfold propagateOnce
  exact counterInv_foldl _
    (fun t d => counterInv_propagateDir lg y1 x1 pattern t d) _ s hInv

theorem counterInv_propagate [Field α] (lg : α → α) :
    ∀ (fuel : Nat) (s : PState α), counterInv s →
      counterInv (Propagator.propagate lg fuel s) := by
  intro fuel
  induction fuel with
  | zero => intro s h; exact h
  | succ fuel ih =>
    intro s h
    show counterInv (Propagator.propagate lg (fuel + 1) s)
    unfold Propagator.propagate
    cases hq : s.propagatingQueue with
    | nil => exact h
    | cons hd rest =>
      obtain ⟨y1, x1, pattern⟩ := hd
      refine ih _ (counterInv_propagateOnce lg y1 x1 pattern _ ?_)
      intro y x p hdata d
      exact h y x p hdata d

theorem counterInv_unset [Field α] (lg : α → α) (fuel : Nat) (s : PState α)
    (y x pattern : Nat) (hInv : counterInv s) :
    counterInv (Propagator.unset lg fuel s y x pattern) := by
  unfold Propagator.unset
  by_cases hd : s.wave.data y x pattern
  · rw [if_pos hd]
    refine counterInv_propagate lg fuel _ ?_
    intro y' x' p' hdata d
    have hdata' : (s.wave.unset lg y x pattern).data y' x' p' = false := hdata
    show (updCompatible s.compatible y x pattern (DirArray.newConst 0) y' x' p').get d ≤ 0
    rw [updCompatible_apply]
    by_cases hc : y' = y ∧ x' = x ∧ p' = pattern
    · rw [if_pos hc, DirArray.get_newConst]
    · rw [if_neg hc]
      rw [WaveS.unset_data_ne lg s.wave y x pattern y' x' p' hc] at hdata'
      exact hInv y' x' p' hdata' d
  · rw [if_neg hd]
    exact hInv

theorem counterInv_applyUnsets [Field α] (lg : α → α) (fuel : Nat)
    (ops : List (Nat × Nat × Nat)) (s : PState α) (hInv : counterInv s) :
    counterInv (applyUnsets lg fuel ops s) := by
  unfold applyUnsets
  exact counterInv_foldl _
    (fun t op h => counterInv_unset lg fuel t op.1 op.2.1 op.2.2 h) ops s hInv

theorem counterInv_new [Field α] (lg : α → α) (height width : Nat) (weights : List α)
    (patternsCompatibility : List (DirArray (List Nat))) (isToric : Bool) :
    counterInv (Propagator.new lg height width weights patternsCompatibility isToric) := by
  intro y x p hdata
  cases hdata

/-- C2 counterexample: one pattern of weight 1 compatible with itself in all
four directions, on a non-toric `1 × 3` grid. `unset(0, 1, 0)` bans the
pattern at `(0, 1)` and zeroes its counters, but the propagation it triggers
bans the pattern at `(0, 0)` and `(0, 2)`, and popping those entries
decrements the already-zeroed counters at `(0, 1)` to `-1`. -/
theorem C2_counter_not_zero_counterexample :
    ((Propagator.unset (fun x : Rat => x) 10
        (Propagator.new (fun x : Rat => x) 1 3 [(1 : Rat)] [DirArray.newConst [0]] false)
        0 1 0).wave.data 0 1 0 = false) ∧
    ((Propagator.unset (fun x : Rat => x) 10
        (Propagator.new (fun x : Rat => x) 1 3 [(1 : Rat)] [DirArray.newConst [0]] false)
        0 1 0).compatible 0 1 0).get .left = -1 := by
  decide

/-- C2 amended: starting from `Propagator::new` and applying any sequence of
`unset` calls, once a pattern `p` is banned at `(y, x)` (via `unset` or during
`propagate`), it stays banned and all four support counters
`compatible[y][x][p][d]` are nonpositive for the rest of the solve: later
propagation steps may decrement them below 0 but never make them positive
(and a nonpositive counter never re-triggers the zero test). -/
theorem C2_counters_nonpositive_after_ban {α : Type _} [Field α] (lg : α → α)
    (fuel fuel2 : Nat) (ops ops2 : List (Nat × Nat × Nat))
    (height width : Nat) (weights : List α)
    (patternsCompatibility : List (DirArray (List Nat))) (isToric : Bool)
    (y x p : Nat)
    (hban : (applyUnsets lg fuel ops
      (Propagator.new lg height width weights patternsCompatibility isToric)).wave.data
        y x p = false) :
    ((applyUnsets lg fuel2 ops2 (applyUnsets lg fuel ops
      (Propagator.new lg height width weights patternsCompatibility isToric))).wave.data
        y x p = false) ∧
    (∀ d, ((applyUnsets lg fuel2 ops2 (applyUnsets lg fuel ops
      (Propagator.new lg height width weights patternsCompatibility isToric))).compatible
        y x p).get d ≤ 0) := by
  have hstill := wave_banned_applyUnsets lg fuel2 ops2 _ y x p hban
  refine ⟨hstill, ?_⟩
  have hInv : counterInv (applyUnsets lg fuel2 ops2 (applyUnsets lg fuel ops
      (Propagator.new lg height width weights patternsCompatibility isToric))) :=
    counterInv_applyUnsets lg fuel2 ops2 _
      (counterInv_applyUnsets lg fuel ops _
        (counterInv_new lg height width weights patternsCompatibility isToric))
  exact fun d => hInv y x p hstill d

/-- C2 witness: the amended theorem applied to the counterexample
configuration, with one further `unset` call after the ban. -/
theorem C2_counters_nonpositive_after_ban_witness :
    ((applyUnsets (fun x : Rat => x) 10 [(0, 0, 0)] (applyUnsets (fun x : Rat => x) 10
      [(0, 1, 0)] (Propagator.new (fun x : Rat => x) 1 3 [(1 : Rat)]
        [DirArray.newConst [0]] false))).wave.data 0 1 0 = false) ∧
    (∀ d, ((applyUnsets (fun x : Rat => x) 10 [(0, 0, 0)] (applyUnsets (fun x : Rat => x) 10
      [(0, 1, 0)] (Propagator.new (fun x : Rat => x) 1 3 [(1 : Rat)]
        [DirArray.newConst [0]] false))).compatible 0 1 0).get d ≤ 0) :=
  C2_counters_nonpositive_after_ban (fun x : Rat => x) 10 10 [(0, 1, 0)] [(0, 0, 0)]
    1 3 [(1 : Rat)] [DirArray.newConst [0]] false 0 1 0 (by decide)

/-!
Claim C7: `Propagator::reset` restores exactly the freshly-constructed
state. The queue field is untouched by `reset`, but it is empty in every
state reachable through the public operations (`unset` always runs
`propagate` to completion), so the third conjunct assumes an empty queue.
-/

/-- C7: after `reset()` the wave allows every pattern in every cell and every
counter `compatible[y][x][p][d]` equals
`|patterns_compatibility[p][opposite(d)]|`; and whenever the propagation
queue is empty (as in every quiescent state), `reset` produces exactly the
state built by `Propagator::new` with the same height, width, weights,
compatibility table and toricity. -/
theorem C7_reset_restores_new {α : Type _} [Field α] (lg : α → α) (s : PState α) :
    ((Propagator.reset lg s).wave.data = fun _ _ _ => true) ∧
    ((Propagator.reset lg s).compatible = fun _ _ pattern =>
      DirArray.newGenerator fun direction =>
        (((s.patternsCompatibility.getD pattern default).get direction.opposite).length :
          Int)) ∧
    (s.propagatingQueue = [] →
      Propagator.reset lg s =
        Propagator.new lg s.wave.height s.wave.width s.wave.weights
          s.patternsCompatibility s.isToric) := by
  refine ⟨rfl, rfl, ?_⟩
  intro hq
  obtain ⟨⟨wh, ww, wwts, wdata, wmemo⟩, toric, pc, comp, queue⟩ := s
  simp only at hq
  subst hq
  rfl

/-- C7 witness: resetting a freshly built one-pattern propagator yields the
same propagator. -/
theorem C7_reset_restores_new_witness :
    Propagator.reset (fun x : Rat => x)
        (Propagator.new (fun x : Rat => x) 1 1 [(1 : Rat)] [DirArray.newConst []] false) =
      Propagator.new (fun x : Rat => x) 1 1 [(1 : Rat)] [DirArray.newConst []] false :=
  (C7_reset_restores_new (fun x : Rat => x)
    (Propagator.new (fun x : Rat => x) 1 1 [(1 : Rat)] [DirArray.newConst []] false)).2.2 rfl

/-!
Claim C4: `Wave::get_min_entropy` yields exactly one of three results.
-/

/-- The invariant of the scan state: the current minimum and current cell
are absent together, and the recorded minimum is the entropy of the
recorded cell, which is a genuine candidate (`n_patterns ≥ 2`). -/
def minStateWf [LinearOrderedField α] (w : WaveS α) (lg : α → α) (st : MinState α) : Prop :=
  (st.min = none ↔ st.argmin = none) ∧
  ∀ a, st.argmin = some a →
    st.min = some ((w.memo a.1 a.2).entropy lg) ∧ 2 ≤ (w.memo a.1 a.2).nPatterns

theorem mem_rowMajorCells (height width : Nat) (c : Nat × Nat) :
    c ∈ rowMajorCells height width ↔ c.1 < height ∧ c.2 < width := by
  obtain ⟨i, j⟩ := c
  unfold rowMajorCells
  simp only [List.mem_flatMap, List.mem_map, List.mem_range]
  constructor
  · rintro ⟨a, ha, b, hb, heq⟩
    obtain ⟨rfl, rfl⟩ := Prod.mk.inj heq.symm
    exact ⟨ha, hb⟩
  · rintro ⟨hi, hj⟩
    exact ⟨i, hi, j, hj, rfl⟩

theorem minEntropyLoop_impossible_iff [LinearOrderedField α] (w : WaveS α) (lg : α → α)
    (draws : Nat → Int) :
    ∀ (L : List (Nat × Nat)) (st : MinState α),
      (minEntropyLoop w lg draws L st = .error .impossible ↔
        ∃ c ∈ L, (w.memo c.1 c.2).nPatterns = 0) := by
  intro L
  induction L with
  | nil =>
    intro st
    rw [minEntropyLoop]
    cases st.argmin <;> simp
  | cons c rest ih =>
    intro st
    rw [minEntropyLoop]
    by_cases h1 : (w.memo c.1 c.2).nPatterns = 1
    · rw [if_pos h1, ih st]
      constructor
      · rintro ⟨c', hc', h0⟩
        exact ⟨c', List.mem_cons_of_mem _ hc', h0⟩
      · rintro ⟨c', hc', h0⟩
        rcases List.mem_cons.mp hc' with rfl | hm
        · omega
        · exact ⟨c', hm, h0⟩
    · rw [if_neg h1]
      by_cases h0 : (w.memo c.1 c.2).nPatterns = 0
      · rw [if_pos h0]
        simp only [true_iff]
        exact ⟨c, List.mem_cons_self _ _, h0⟩
      · rw [if_neg h0]
        have hres : ∀ st' : MinState α,
            (minEntropyLoop w lg draws rest st' = .error .impossible ↔
              ∃ c' ∈ c :: rest, (w.memo c'.1 c'.2).nPatterns = 0) := by
          intro st'
          rw [ih st']
          constructor
          · rintro ⟨c', hc', hz⟩
            exact ⟨c', List.mem_cons_of_mem _ hc', hz⟩
          · rintro ⟨c', hc', hz⟩
            rcases List.mem_cons.mp hc' with rfl | hm
            · omega
            · exact ⟨c', hm, hz⟩
        cases hcmp : cmpWithInf ((w.memo c.1 c.2).entropy lg) st.min with
        | lt => exact hres _
        | eq =>
          by_cases hr : draws st.used < st.minRandom
          · rw [if_pos hr]; exact hres _
          · rw [if_neg hr]; exact hres _
        | gt => exact hres _

theorem minStateWf_init [LinearOrderedField α] (w : WaveS α) (lg : α → α) :
    minStateWf w lg (⟨none, 2147483647, none, 0⟩ : MinState α) := by
  refine ⟨by simp, ?_⟩
  intro a ha
  cases ha

theorem minEntropyLoop_finished_iff [LinearOrderedField α] (w : WaveS α) (lg : α → α)
    (draws : Nat → Int) :
    ∀ (L : List (Nat × Nat)) (st : MinState α), minStateWf w lg st →
      (minEntropyLoop w lg draws L st = .error .finished ↔
        (∀ c ∈ L, (w.memo c.1 c.2).nPatterns = 1) ∧ st.argmin = none) := by
  intro L
  induction L with
  | nil =>
    intro st _
    rw [minEntropyLoop]
    cases ha : st.argmin <;> simp [ha]
  | cons c rest ih =>
    intro st hwf
    rw [minEntropyLoop]
    by_cases h1 : (w.memo c.1 c.2).nPatterns = 1
    · rw [if_pos h1, ih st hwf]
      constructor
      · rintro ⟨hall, hnone⟩
        refine ⟨?_, hnone⟩
        intro c' hc'
        rcases List.mem_cons.mp hc' with rfl | hm
        · exact h1
        · exact hall c' hm
      · rintro ⟨hall, hnone⟩
        exact ⟨fun c' hc' => hall c' (List.mem_cons_of_mem _ hc'), hnone⟩
    · rw [if_neg h1]
      have hnotall : ¬ ((∀ c' ∈ c :: rest, (w.memo c'.1 c'.2).nPatterns = 1) ∧
          st.argmin = none) := by
        rintro ⟨hall, _⟩
        exact h1 (hall c (List.mem_cons_self _ _))
      by_cases h0 : (w.memo c.1 c.2).nPatterns = 0
      · rw [if_pos h0]
        simp only [iff_false_intro hnotall]
        simp
      · rw [if_neg h0]
        have hcand : 2 ≤ (w.memo c.1 c.2).nPatterns := by omega
        cases hcmp : cmpWithInf ((w.memo c.1 c.2).entropy lg) st.min with
        | lt =>
          rw [ih _ ⟨by simp, ?_⟩]
          · simp only [iff_false_intro hnotall]
            simp
          · rintro a ha
            obtain rfl : c = a := Option.some.inj ha
            exact ⟨rfl, hcand⟩
        | eq =>
          by_cases hr : draws st.used < st.minRandom
          · rw [if_pos hr]
            rw [ih _ ⟨by simp, ?_⟩]
            · simp only [iff_false_intro hnotall]
              simp
            · rintro a ha
              obtain rfl : c = a := Option.some.inj ha
              exact ⟨rfl, hcand⟩
          · rw [if_neg hr]
            have hmin : st.min ≠ none := by
              intro hm
              rw [hm] at hcmp
              cases hcmp
            have hwf' : minStateWf w lg { st with used := st.used + 1 } := by
              refine ⟨?_, ?_⟩
              · show st.min = none ↔ st.argmin = none
                exact hwf.1
              · intro a ha
                exact hwf.2 a ha
            rw [ih _ hwf']
            have hargmin : st.argmin ≠ none := fun h => hmin (hwf.1.mpr h)
            constructor
            · rintro ⟨_, hnone⟩
              exact absurd hnone hargmin
            · intro h
              exact absurd h hnotall
        | gt =>
          rw [ih st hwf]
          have hmin : st.min ≠ none := by
            intro hm
            rw [hm] at hcmp
            cases hcmp
          have hargmin : st.argmin ≠ none := fun h => hmin (hwf.1.mpr h)
          constructor
          · rintro ⟨_, hnone⟩
            exact absurd hnone hargmin
          · intro h
            exact absurd h hnotall

theorem minEntropyLoop_ok_spec [LinearOrderedField α] (w : WaveS α) (lg : α → α)
    (draws : Nat → Int) :
    ∀ (L : List (Nat × Nat)) (st : MinState α), minStateWf w lg st →
      ∀ yx, minEntropyLoop w lg draws L st = .ok yx →
        2 ≤ (w.memo yx.1 yx.2).nPatterns ∧
        (∀ c ∈ L, 2 ≤ (w.memo c.1 c.2).nPatterns →
          (w.memo yx.1 yx.2).entropy lg ≤ (w.memo c.1 c.2).entropy lg) ∧
        (∀ a, st.argmin = some a →
          (w.memo yx.1 yx.2).entropy lg ≤ (w.memo a.1 a.2).entropy lg) ∧
        (yx ∈ L ∨ st.argmin = some yx) := by
  intro L
  induction L with
  | nil =>
    intro st hwf yx hok
    rw [minEntropyLoop] at hok
    cases ha : st.argmin with
    | none => rw [ha] at hok; cases hok
    | some a =>
      rw [ha] at hok
      have hay : a = yx := by simpa using hok
      obtain ⟨_, hcand⟩ := hwf.2 a ha
      subst hay
      refine ⟨hcand, by simp, ?_, Or.inr rfl⟩
      intro a' ha'
      obtain rfl : a = a' := Option.some.inj ha'
      exact le_refl _
  | cons c rest ih =>
    intro st hwf yx hok
    rw [minEntropyLoop] at hok
    by_cases h1 : (w.memo c.1 c.2).nPatterns = 1
    · rw [if_pos h1] at hok
      obtain ⟨hcand, hmin, hargm, hmem⟩ := ih st hwf yx hok
      refine ⟨hcand, ?_, hargm, ?_⟩
      · intro c' hc' hcand'
        rcases List.mem_cons.mp hc' with rfl | hm
        · omega
        · exact hmin c' hm hcand'
      · rcases hmem with hm | hm
        · exact Or.inl (List.mem_cons_of_mem _ hm)
        · exact Or.inr hm
    · rw [if_neg h1] at hok
      by_cases h0 : (w.memo c.1 c.2).nPatterns = 0
      · rw [if_pos h0] at hok; cases hok
      · rw [if_neg h0] at hok
        have hcandc : 2 ≤ (w.memo c.1 c.2).nPatterns := by omega
        cases hcmp : cmpWithInf ((w.memo c.1 c.2).entropy lg) st.min with
        | lt =>
          rw [hcmp] at hok
          have hwf' : minStateWf w lg
              ⟨some ((w.memo c.1 c.2).entropy lg), draws st.used, some c,
                st.used + 1⟩ := by
            refine ⟨by simp, ?_⟩
            rintro a ha
            obtain rfl : c = a := Option.some.inj ha
            exact ⟨rfl, hcandc⟩
          obtain ⟨hcand, hmin, hargm, hmem⟩ := ih _ hwf' yx hok
          have hlec : (w.memo yx.1 yx.2).entropy lg ≤ (w.memo c.1 c.2).entropy lg :=
            hargm c rfl
          refine ⟨hcand, ?_, ?_, ?_⟩
          · intro c' hc' hcand'
            rcases List.mem_cons.mp hc' with rfl | hm
            · exact hlec
            · exact hmin c' hm hcand'
          · intro a ha
            obtain ⟨hm, _⟩ := hwf.2 a ha
            have hlt : (w.memo c.1 c.2).entropy lg < (w.memo a.1 a.2).entropy lg := by
              unfold cmpWithInf at hcmp
              rw [hm] at hcmp
              exact compare_lt_iff_lt.mp hcmp
            exact le_of_lt (lt_of_le_of_lt hlec hlt)
          · rcases hmem with hm | hm
            · exact Or.inl (List.mem_cons_of_mem _ hm)
            · obtain rfl : c = yx := Option.some.inj hm
              exact Or.inl (List.mem_cons_self _ _)
        | eq =>
          rw [hcmp] at hok
          have hminsome : ∃ m, st.min = some m := by
            cases hm : st.min with
            | none => rw [hm] at hcmp; cases hcmp
            | some m => exact ⟨m, rfl⟩
          obtain ⟨m, hm⟩ := hminsome
          have heq : (w.memo c.1 c.2).entropy lg = m := by
            unfold cmpWithInf at hcmp
            rw [hm] at hcmp
            exact compare_eq_iff_eq.mp hcmp
          have hargmin0 : ∃ a0, st.argmin = some a0 := by
            cases ha0 : st.argmin with
            | none =>
              have := hwf.1.mpr ha0
              rw [hm] at this
              cases this
            | some a0 => exact ⟨a0, rfl⟩
          obtain ⟨a0, ha0⟩ := hargmin0
          have hea0 : (w.memo a0.1 a0.2).entropy lg = m := by
            have := (hwf.2 a0 ha0).1
            rw [hm] at this
            exact (Option.some.inj this).symm
          by_cases hr : draws st.used < st.minRandom
          · rw [if_pos hr] at hok
            have hwf' : minStateWf w lg
                ⟨some ((w.memo c.1 c.2).entropy lg), draws st.used, some c,
                  st.used + 1⟩ := by
              refine ⟨by simp, ?_⟩
              rintro a ha
              obtain rfl : c = a := Option.some.inj ha
              exact ⟨rfl, hcandc⟩
            obtain ⟨hcand, hmin, hargm, hmem⟩ := ih _ hwf' yx hok
            have hlec : (w.memo yx.1 yx.2).entropy lg ≤ (w.memo c.1 c.2).entropy lg :=
              hargm c rfl
            refine ⟨hcand, ?_, ?_, ?_⟩
            · intro c' hc' hcand'
              rcases List.mem_cons.mp hc' with rfl | hmm
              · exact hlec
              · exact hmin c' hmm hcand'
            · intro a ha
              obtain ⟨hma, _⟩ := hwf.2 a ha
              have hea : (w.memo a.1 a.2).entropy lg = m := by
                rw [hm] at hma
                exact (Option.some.inj hma).symm
              rw [hea, ← heq]
              exact hlec
            · rcases hmem with hmm | hmm
              · exact Or.inl (List.mem_cons_of_mem _ hmm)
              · obtain rfl : c = yx := Option.some.inj hmm
                exact Or.inl (List.mem_cons_self _ _)
          · rw [if_neg hr] at hok
            have hwf' : minStateWf w lg { st with used := st.used + 1 } := by
              refine ⟨hwf.1, ?_⟩
              intro a ha
              exact hwf.2 a ha
            obtain ⟨hcand, hmin, hargm, hmem⟩ := ih _ hwf' yx hok
            have hlea0 : (w.memo yx.1 yx.2).entropy lg ≤ (w.memo a0.1 a0.2).entropy lg :=
              hargm a0 ha0
            refine ⟨hcand, ?_, hargm, ?_⟩
            · intro c' hc' hcand'
              rcases List.mem_cons.mp hc' with rfl | hmm
              · rw [show (w.memo c'.1 c'.2).entropy lg = m from heq, ← hea0]
                exact hlea0
              · exact hmin c' hmm hcand'
            · rcases hmem with hmm | hmm
              · exact Or.inl (List.mem_cons_of_mem _ hmm)
              · exact Or.inr hmm
        | gt =>
          rw [hcmp] at hok
          have hminsome : ∃ m, st.min = some m := by
            cases hmv : st.min with
            | none => rw [hmv] at hcmp; cases hcmp
            | some m => exact ⟨m, rfl⟩
          obtain ⟨m, hm⟩ := hminsome
          have hgt : m < (w.memo c.1 c.2).entropy lg := by
            unfold cmpWithInf at hcmp
            rw [hm] at hcmp
            exact compare_gt_iff_gt.mp hcmp
          have hargmin0 : ∃ a0, st.argmin = some a0 := by
            cases ha0 : st.argmin with
            | none =>
              have := hwf.1.mpr ha0
              rw [hm] at this
              cases this
            | some a0 => exact ⟨a0, rfl⟩
          obtain ⟨a0, ha0⟩ := hargmin0
          have hea0 : (w.memo a0.1 a0.2).entropy lg = m := by
            have := (hwf.2 a0 ha0).1
            rw [hm] at this
            exact (Option.some.inj this).symm
          obtain ⟨hcand, hmin, hargm, hmem⟩ := ih st hwf yx hok
          refine ⟨hcand, ?_, hargm, ?_⟩
          · intro c' hc' hcand'
            rcases List.mem_cons.mp hc' with rfl | hmm
            · have h1 : (w.memo yx.1 yx.2).entropy lg ≤ m := by
                rw [← hea0]
                exact hargm a0 ha0
              exact le_of_lt (lt_of_le_of_lt h1 hgt)
            · exact hmin c' hmm hcand'
          · rcases hmem with hmm | hmm
            · exact Or.inl (List.mem_cons_of_mem _ hmm)
            · exact Or.inr hmm

/-- C4: `Wave::get_min_entropy` yields exactly one of three results:
`Impossible` iff some cell has `n_patterns = 0`; `Finished` iff every cell
has `n_patterns ≤ 1` and none has 0; otherwise `Ok((y, x))` where `(y, x)`
is an in-bounds cell with `n_patterns ≥ 2` whose entropy is minimum among
all cells with `n_patterns ≥ 2` (tied cells are separated by the random
draws consumed by the scan, one per tying candidate, keeping the smallest). -/
theorem C4_get_min_entropy_trichotomy {α : Type _} [LinearOrderedField α]
    (w : WaveS α) (lg : α → α) (draws : Nat → Int) :
    (w.getMinEntropy lg draws = .error .impossible ↔
      ∃ i j, i < w.height ∧ j < w.width ∧ (w.memo i j).nPatterns = 0) ∧
    (w.getMinEntropy lg draws = .error .finished ↔
      ∀ i j, i < w.height → j < w.width →
        (w.memo i j).nPatterns ≤ 1 ∧ (w.memo i j).nPatterns ≠ 0) ∧
    (∀ y x, w.getMinEntropy lg draws = .ok (y, x) →
      y < w.height ∧ x < w.width ∧ 2 ≤ (w.memo y x).nPatterns ∧
      ∀ i j, i < w.height → j < w.width → 2 ≤ (w.memo i j).nPatterns →
        (w.memo y x).entropy lg ≤ (w.memo i j).entropy lg) := by
  refine ⟨?_, ?_, ?_⟩
  · rw [WaveS.getMinEntropy, minEntropyLoop_impossible_iff w lg draws]
    constructor
    · rintro ⟨c, hc, hz⟩
      obtain ⟨hi, hj⟩ := (mem_rowMajorCells w.height w.width c).mp hc
      exact ⟨c.1, c.2, hi, hj, hz⟩
    · rintro ⟨i, j, hi, hj, hz⟩
      exact ⟨(i, j), (mem_rowMajorCells w.height w.width (i, j)).mpr ⟨hi, hj⟩, hz⟩
  · rw [WaveS.getMinEntropy,
      minEntropyLoop_finished_iff w lg draws _ _ (minStateWf_init w lg)]
    constructor
    · rintro ⟨hall, _⟩
      intro i j hi hj
      have h2 : (w.memo i j).nPatterns = 1 :=
        hall (i, j) ((mem_rowMajorCells w.height w.width (i, j)).mpr ⟨hi, hj⟩)
      omega
    · intro h
      refine ⟨?_, rfl⟩
      intro c hc
      obtain ⟨hi, hj⟩ := (mem_rowMajorCells w.height w.width c).mp hc
      have := h c.1 c.2 hi hj
      omega
  · intro y x hok
    rw [WaveS.getMinEntropy] at hok
    obtain ⟨hcand, hmin, _, hmem⟩ :=
      minEntropyLoop_ok_spec w lg draws _ _ (minStateWf_init w lg) (y, x) hok
    have hin : (y, x) ∈ rowMajorCells w.height w.width := by
      rcases hmem with hm | hm
      · exact hm
      · cases hm
    obtain ⟨hi, hj⟩ := (mem_rowMajorCells w.height w.width (y, x)).mp hin
    refine ⟨hi, hj, hcand, ?_⟩
    intro i j hi' hj' hcand'
    exact hmin (i, j) ((mem_rowMajorCells w.height w.width (i, j)).mpr ⟨hi', hj'⟩) hcand'

/-- C4 witness: a `1 × 1` wave whose single cell has `n_patterns = 2`; the
scan selects that cell. -/
theorem C4_get_min_entropy_trichotomy_witness :
    (WaveS.getMinEntropy
        (⟨1, 1, [1, 1], fun _ _ _ => true, fun _ _ => ⟨0, 1, 2⟩⟩ : WaveS Rat)
        (fun x : Rat => x) (fun _ => 5) = .ok (0, 0)) ∧
    (2 ≤ ((⟨1, 1, [1, 1], fun _ _ _ => true, fun _ _ => ⟨0, 1, 2⟩⟩ : WaveS Rat).memo
        0 0).nPatterns) := by
  refine ⟨by decide, ?_⟩
  have h := (C4_get_min_entropy_trichotomy
    (⟨1, 1, [1, 1], fun _ _ _ => true, fun _ _ => ⟨0, 1, 2⟩⟩ : WaveS Rat)
    (fun x : Rat => x) (fun _ => 5)).2.2 0 0 (by decide)
  exact h.2.2.1

end FastWFC
